import Mathlib

/-!
Verification of the `filter_coverage.py` LCOV filter (repository Zero-Compiler/CZC).

The script reads an LCOV text document, splits it with the regular expression
`(SF:.*?\n)` into alternating content segments and source-file marker lines,
removes `FN:`/`FNDA:`/`FNA:` records matching the destructor pattern `D[012]Ev`
from each content segment, rewrites the `FNF:`/`FNH:` summary counters of the
segment, and concatenates the surviving pieces into the output document.

This file is a shallow embedding of that transformation over `List Char`:

* `splitSF`       models `re.split(r'(SF:.*?\n)', content)` (line 12 of the source);
* `processLines`  models the per-section loop of lines 28-54;
* `processSegments` / `filter_lcov` model the outer loop of lines 17-56 and the
  value that would be written to the output file together with the reported
  total of removed records;
* `pyInt` models Python's `int(str)` conversion (ASCII whitespace stripping,
  an optional sign, decimal digits with single underscores between digits);
* `intToChars` models Python's decimal rendering of an `int` in an f-string.

A raised `ValueError` (called FormatError by the specification) is modelled by
`Except.error ()`; since the script opens the output file only after the whole
transformation has finished, an error result means that nothing is written.
-/

namespace FilterCoverage

/-- Characters stripped by Python's `str.strip()` / accepted around `int()`
input (the ASCII whitespace characters; exotic Unicode whitespace, which no
claim exercises, is not modelled). -/
def isPyWS (c : Char) : Bool :=
  c = ' ' || c = '\t' || c = '\n' || c = '\r' || c = '\x0b' || c = '\x0c'

/-- `section.strip()` is truthy iff the text has a non-whitespace character
(line 21 of the source). -/
def hasNonWS (s : List Char) : Bool := s.any (fun c => !isPyWS c)

/-- `str.startswith`, on character lists: first argument is the pattern. -/
def startsWith : List Char → List Char → Bool
  | [], _ => true
  | _ :: _, [] => false
  | p :: ps, c :: cs => p = c && startsWith ps cs

/-- `str.split(sep)` for a one-character separator, as in `section.split('\n')`,
`line.split(',')` and `line.split(':')`. -/
def splitC (sep : Char) : List Char → List (List Char)
  | [] => [[]]
  | c :: rest =>
    if c = sep then [] :: splitC sep rest
    else
      match splitC sep rest with
      | [] => [[c]]
      | l :: ls => (c :: l) :: ls

/-- `'\n'.join(lines)` (line 56 of the source). -/
def joinNl : List (List Char) → List Char
  | [] => []
  | [l] => l
  | l :: ls => l ++ '\n' :: joinNl ls

/-- Numeric value of a decimal digit character. -/
def digitVal (c : Char) : Option Nat :=
  if '0' ≤ c && c ≤ '9' then some (c.toNat - 48) else none

/-- Continuation of `pyDigits`: digits, with single underscores allowed
between two digits (Python 3 numeric literals accepted by `int`). -/
def pyDigitsAux : Nat → List Char → Option Nat
  | acc, [] => some acc
  | acc, c :: rest =>
    if c = '_' then
      match rest with
      | [] => none
      | c2 :: rest2 =>
        match digitVal c2 with
        | some d => pyDigitsAux (10 * acc + d) rest2
        | none => none
    else
      match digitVal c with
      | some d => pyDigitsAux (10 * acc + d) rest
      | none => none

/-- A non-empty run of decimal digits with optional single underscores
between digits, as accepted by Python's `int` after sign and whitespace. -/
def pyDigits : List Char → Option Nat
  | [] => none
  | c :: rest =>
    match digitVal c with
    | some d => pyDigitsAux d rest
    | none => none

/-- Leading and trailing whitespace removal, as `int()` performs. -/
def pyStrip (s : List Char) : List Char :=
  ((s.dropWhile isPyWS).reverse.dropWhile isPyWS).reverse

/-- Python's `int(str)`: strip whitespace, optional sign, decimal digits.
`none` models a raised `ValueError` (the specification's FormatError). -/
def pyInt (s : List Char) : Option Int :=
  if (pyStrip s).headD ' ' = '+' then
    (pyDigits (pyStrip s).tail).map (fun n => (n : Int))
  else if (pyStrip s).headD ' ' = '-' then
    (pyDigits (pyStrip s).tail).map (fun n => -(n : Int))
  else (pyDigits (pyStrip s)).map (fun n => (n : Int))

/-- Big-endian decimal digits of a natural number, with explicit fuel so that
the recursion is structural (the fuel `n + 1` always suffices). -/
def natToCharsAux : Nat → Nat → List Char → List Char
  | 0, _, acc => acc
  | fuel + 1, n, acc =>
    if n < 10 then Char.ofNat (48 + n) :: acc
    else natToCharsAux fuel (n / 10) (Char.ofNat (48 + n % 10) :: acc)

/-- Decimal rendering of a natural number (`"0"` for zero). -/
def natToChars (n : Nat) : List Char := natToCharsAux (n + 1) n []

/-- Python's decimal rendering of an `int`, as used by `f'FNF:{new_count}'`. -/
def intToChars (i : Int) : List Char :=
  if i < 0 then '-' :: natToChars i.natAbs else natToChars i.natAbs

def fnTag : List Char := ['F', 'N', ':']
def fndaTag : List Char := ['F', 'N', 'D', 'A', ':']
def fnaTag : List Char := ['F', 'N', 'A', ':']
def fnfTag : List Char := ['F', 'N', 'F', ':']
def fnhTag : List Char := ['F', 'N', 'H', ':']
def sfTag : List Char := ['S', 'F', ':']

/-- The destructor pattern `D[012]Ev` matches at the start of the text. -/
def isDtorAt (l : List Char) : Bool :=
  startsWith ['D', '0', 'E', 'v'] l || startsWith ['D', '1', 'E', 'v'] l ||
    startsWith ['D', '2', 'E', 'v'] l

/-- `re.search(r'D[012]Ev', line)` succeeds: the text contains `D`, one of the
digits `0`/`1`/`2`, then `Ev`, at some position (line 30 of the source). -/
def containsD : List Char → Bool
  | [] => false
  | c :: rest => isDtorAt (c :: rest) || containsD rest

/-- The text contains the substring `SF:` somewhere. -/
def containsSF : List Char → Bool
  | [] => false
  | c :: rest => startsWith sfTag (c :: rest) || containsSF rest

/-- Split at the first newline: `some (before, after)` with the newline
consumed, `none` when the text has no newline. -/
def takeToNl : List Char → Option (List Char × List Char)
  | [] => none
  | c :: rest =>
    if c = '\n' then some ([], rest)
    else (takeToNl rest).map (fun p => (c :: p.1, p.2))

/-- Leftmost match of the regular expression `SF:.*?\n`: returns
`some (pre, marker, rest)` with the input equal to `pre ++ marker ++ rest`,
where `marker` is `SF:`, the shortest run of characters, and a newline.
`none` when no such match exists. -/
def findMarker : List Char → Option (List Char × List Char × List Char)
  | [] => none
  | c :: rest =>
    if startsWith sfTag (c :: rest) then
      match takeToNl (rest.drop 2) with
      | some (inner, after) =>
        some ([], 'S' :: 'F' :: ':' :: (inner ++ ['\n']), after)
      | none => none
    else (findMarker rest).map (fun p => (c :: p.1, p.2.1, p.2.2))

/-- Fueled worker for `splitSF`; each found marker consumes at least four
characters, so fuel `length + 1` always suffices. -/
def splitSFAux : Nat → List Char → List (List Char)
  | 0, s => [s]
  | fuel + 1, s =>
    match findMarker s with
    | none => [s]
    | some (p, m, r) => p :: m :: splitSFAux fuel r

/-- `re.split(r'(SF:.*?\n)', content)` (line 12 of the source): the pieces
between matches interleaved with the captured markers, concatenating back to
the input. -/
def splitSF (s : List Char) : List (List Char) := splitSFAux (s.length + 1) s

/-- Line 30 of the source: the line starts with `FN:`, `FNDA:` or `FNA:` and
contains the destructor pattern. -/
def isFnMatch (l : List Char) : Bool :=
  (startsWith fnTag l || startsWith fndaTag l || startsWith fnaTag l) && containsD l

/-- `line.split(':')[1]`: the text between the first and second colon. -/
def colon1 (l : List Char) : List Char := (splitC ':' l).getD 1 []

/-- Lines 33-37 of the source: extra `fnh_adjust` contribution of a removed
line — `1` when the line is an `FNA:` record with at least two comma-separated
fields and a positive integer second field, `0` otherwise; `int(parts[1])`
raising `ValueError` is an error. -/
def fnaHit (l : List Char) : Except Unit Nat :=
  if startsWith fnaTag l then
    let parts := splitC ',' l
    if 2 ≤ parts.length then
      match pyInt (parts.getD 1 []) with
      | none => .error ()
      | some v => .ok (if 0 < v then 1 else 0)
    else .ok 0
  else .ok 0

/-- Lines 28-54 of the source: one pass over a section's lines with the
running adjustments `fnf_adjust` (`a`) and `fnh_adjust` (`b`). Returns the
surviving lines together with the final values of both adjustments; since
`total_filtered` and `fnf_adjust` are incremented together, the final
`fnf_adjust` of a section started at zero is its contribution to the total. -/
def processLines : List (List Char) → Nat → Nat → Except Unit (List (List Char) × Nat × Nat)
  | [], a, b => .ok ([], a, b)
  | l :: rest, a, b =>
    if isFnMatch l then
      match fnaHit l with
      | .error e => .error e
      | .ok d => processLines rest (a + 1) (b + d)
    else if startsWith fnfTag l then
      match pyInt (colon1 l) with
      | none => .error ()
      | some n =>
        (processLines rest a b).map
          (fun r => ((fnfTag ++ intToChars (n - (a : Int))) :: r.1, r.2))
    else if startsWith fnhTag l then
      match pyInt (colon1 l) with
      | none => .error ()
      | some n =>
        (processLines rest a b).map
          (fun r => ((fnhTag ++ intToChars (n - (b : Int))) :: r.1, r.2))
    else
      (processLines rest a b).map (fun r => (l :: r.1, r.2))

/-- Lines 23-56 of the source: split a content segment into lines, filter
them, and join the survivors with newlines; also report the number of removed
records. -/
def processSection (seg : List Char) : Except Unit (List Char × Nat) :=
  (processLines (splitC '\n' seg) 0 0).map (fun r => (joinNl r.1, r.2.1))

/-- Lines 17-56 of the source: markers pass through, content segments with a
non-whitespace character are filtered, all other segments are dropped; the
removal totals of the processed segments are summed. -/
def processSegments : List (List Char) → Except Unit (List Char × Nat)
  | [] => .ok ([], 0)
  | seg :: rest =>
    if startsWith sfTag seg then
      (processSegments rest).map (fun r => (seg ++ r.1, r.2))
    else if hasNonWS seg then
      match processSection seg with
      | .error e => .error e
      | .ok (txt, c) =>
        (processSegments rest).map (fun r => (txt ++ r.1, c + r.2))
    else processSegments rest

/-- The whole transformation of `filter_lcov` on the file contents: the text
written to the output file and the printed total, or an error when a
`ValueError` aborts the run before the output file is opened. -/
def filter_lcov (content : List Char) : Except Unit (List Char × Nat) :=
  processSegments (splitSF content)

/-- Number of removed lines of a section: lines with an `FN:`/`FNDA:`/`FNA:`
prefix containing the destructor pattern. -/
def remCount (ls : List (List Char)) : Nat := ls.countP (fun l => isFnMatch l)

/-- A removed line that also counts against `FNH:`: an `FNA:` record with at
least two comma-separated fields whose second field is a positive integer. -/
def fnaPos (l : List Char) : Bool :=
  startsWith fnaTag l &&
    (let parts := splitC ',' l
     decide (2 ≤ parts.length) &&
       match pyInt (parts.getD 1 []) with
       | some v => decide (0 < v)
       | none => false)

/-- Number of removed lines of a section with a positive `FNA:` hit count. -/
def hitCount (ls : List (List Char)) : Nat :=
  ls.countP (fun l => isFnMatch l && fnaPos l)

/-! ### Basic lemmas about `startsWith` and the record tags -/

theorem startsWith_iff (p l : List Char) : startsWith p l = true ↔ ∃ t, l = p ++ t := by
  induction p generalizing l with
  | nil => simp [startsWith]
  | cons x ps ih =>
    cases l with
    | nil => simp [startsWith]
    | cons c cs =>
      simp only [startsWith, List.cons_append, Bool.and_eq_true, decide_eq_true_eq, ih]
      constructor
      · rintro ⟨rfl, t, rfl⟩; exact ⟨t, rfl⟩
      · rintro ⟨t, h⟩
        injection h with h1 h2
        exact ⟨h1.symm, t, h2⟩

theorem startsWith_append (p t : List Char) : startsWith p (p ++ t) = true :=
  (startsWith_iff p (p ++ t)).2 ⟨t, rfl⟩

theorem startsWith_of_ext {p l t : List Char} (h : startsWith p l = true) :
    startsWith p (l ++ t) = true := by
  obtain ⟨u, rfl⟩ := (startsWith_iff p l).1 h
  exact (startsWith_iff _ _).2 ⟨u ++ t, by simp⟩

theorem fnf_shape {l : List Char} (h : startsWith fnfTag l = true) :
    ∃ t, l = 'F' :: 'N' :: 'F' :: ':' :: t := by
  obtain ⟨t, rfl⟩ := (startsWith_iff _ _).1 h
  exact ⟨t, rfl⟩

theorem fnh_shape {l : List Char} (h : startsWith fnhTag l = true) :
    ∃ t, l = 'F' :: 'N' :: 'H' :: ':' :: t := by
  obtain ⟨t, rfl⟩ := (startsWith_iff _ _).1 h
  exact ⟨t, rfl⟩

/-- A line starting with `FNF:` has none of the three removable prefixes. -/
theorem fnf_not_match {l : List Char} (h : startsWith fnfTag l = true) :
    isFnMatch l = false := by
  obtain ⟨t, rfl⟩ := fnf_shape h
  simp [isFnMatch, startsWith, fnTag, fndaTag, fnaTag]

/-- A line starting with `FNH:` has none of the three removable prefixes. -/
theorem fnh_not_match {l : List Char} (h : startsWith fnhTag l = true) :
    isFnMatch l = false := by
  obtain ⟨t, rfl⟩ := fnh_shape h
  simp [isFnMatch, startsWith, fnTag, fndaTag, fnaTag]

/-- A line starting with `FNH:` does not start with `FNF:`. -/
theorem fnh_not_fnf {l : List Char} (h : startsWith fnhTag l = true) :
    startsWith fnfTag l = false := by
  obtain ⟨t, rfl⟩ := fnh_shape h
  simp [startsWith, fnfTag]

/-! ### Step lemmas for `processLines` -/

theorem processLines_nil (a b : Nat) : processLines [] a b = .ok ([], a, b) := rfl

theorem processLines_cons_match {l : List Char} {d : Nat} (rest : List (List Char))
    (a b : Nat) (h1 : isFnMatch l = true) (h2 : fnaHit l = .ok d) :
    processLines (l :: rest) a b = processLines rest (a + 1) (b + d) := by
  simp [processLines, h1, h2]

theorem processLines_cons_match_err {l : List Char} (rest : List (List Char))
    (a b : Nat) (h1 : isFnMatch l = true) (h2 : fnaHit l = .error ()) :
    processLines (l :: rest) a b = .error () := by
  simp [processLines, h1, h2]

theorem processLines_cons_fnf {l : List Char} {n : Int} (rest : List (List Char))
    (a b : Nat) (h1 : startsWith fnfTag l = true) (h2 : pyInt (colon1 l) = some n) :
    processLines (l :: rest) a b =
      (processLines rest a b).map
        (fun r => ((fnfTag ++ intToChars (n - (a : Int))) :: r.1, r.2)) := by
  simp [processLines, fnf_not_match h1, h1, h2]

theorem processLines_cons_fnf_err {l : List Char} (rest : List (List Char))
    (a b : Nat) (h1 : startsWith fnfTag l = true) (h2 : pyInt (colon1 l) = none) :
    processLines (l :: rest) a b = .error () := by
  simp [processLines, fnf_not_match h1, h1, h2]

theorem processLines_cons_fnh {l : List Char} {n : Int} (rest : List (List Char))
    (a b : Nat) (h1 : startsWith fnhTag l = true) (h2 : pyInt (colon1 l) = some n) :
    processLines (l :: rest) a b =
      (processLines rest a b).map
        (fun r => ((fnhTag ++ intToChars (n - (b : Int))) :: r.1, r.2)) := by
  simp [processLines, fnh_not_match h1, fnh_not_fnf h1, h1, h2]

theorem processLines_cons_fnh_err {l : List Char} (rest : List (List Char))
    (a b : Nat) (h1 : startsWith fnhTag l = true) (h2 : pyInt (colon1 l) = none) :
    processLines (l :: rest) a b = .error () := by
  simp [processLines, fnh_not_match h1, fnh_not_fnf h1, h1, h2]

theorem processLines_cons_other {l : List Char} (rest : List (List Char)) (a b : Nat)
    (h1 : isFnMatch l = false) (h2 : startsWith fnfTag l = false)
    (h3 : startsWith fnhTag l = false) :
    processLines (l :: rest) a b =
      (processLines rest a b).map (fun r => (l :: r.1, r.2)) := by
  simp [processLines, h1, h2, h3]

/-- The `fnh_adjust` contribution of a removed line, when no `ValueError`
occurs, is `1` exactly for positive `FNA:` records. -/
theorem fnaHit_ok {l : List Char} {d : Nat} (h : fnaHit l = .ok d) :
    d = if fnaPos l = true then 1 else 0 := by
  unfold fnaHit at h
  unfold fnaPos
  by_cases hfa : startsWith fnaTag l = true
  · simp only [hfa, if_true, true_and]
    simp only [hfa, if_true] at h
    by_cases hlen : 2 ≤ (splitC ',' l).length
    · simp only [hlen, if_true] at h
      simp only [hlen, decide_eq_true_eq, if_true]
      cases hv : pyInt ((splitC ',' l).getD 1 []) with
      | none => rw [hv] at h; exact absurd h (by simp)
      | some v =>
        rw [hv] at h
        simp only [Except.ok.injEq] at h
        rcases h with rfl
        by_cases hp : 0 < v
        · simp [hp]
        · simp [hp]
    · simp only [hlen, if_false] at h
      simp only [Except.ok.injEq] at h
      simp [hlen, ← h]
  · simp only [Bool.not_eq_true] at hfa
    simp only [hfa, Bool.false_eq_true, if_false] at h
    simp only [Except.ok.injEq] at h
    simp [hfa, ← h]

/-- Final adjustment counters: `fnf_adjust` grows by the number of removed
lines, `fnh_adjust` by the number of removed positive `FNA:` records. -/
theorem processLines_adjusts {ls : List (List Char)} {a b : Nat}
    {o : List (List Char)} {a' b' : Nat}
    (h : processLines ls a b = .ok (o, a', b')) :
    a' = a + remCount ls ∧ b' = b + hitCount ls := by
  induction ls generalizing a b o a' b' with
  | nil =>
    rw [processLines_nil] at h
    simp only [Except.ok.injEq, Prod.mk.injEq] at h
    simp [remCount, hitCount, ← h.2.1, ← h.2.2]
  | cons l rest ih =>
    by_cases hm : isFnMatch l = true
    · cases hfa : fnaHit l with
      | error e =>
        cases e
        rw [processLines_cons_match_err rest a b hm hfa] at h
        exact absurd h (by simp)
      | ok d =>
        rw [processLines_cons_match rest a b hm hfa] at h
        obtain ⟨ha, hb⟩ := ih h
        have hd := fnaHit_ok hfa
        constructor
        · rw [ha, remCount, remCount, List.countP_cons, hm]
          simp only [if_true]
          omega
        · rw [hb, hitCount, hitCount, List.countP_cons, hm, Bool.true_and, hd]
          by_cases hp : fnaPos l = true
          · simp [hp]; omega
          · simp only [Bool.not_eq_true] at hp
            simp [hp]
    · simp only [Bool.not_eq_true] at hm
      have hcnt : remCount (l :: rest) = remCount rest := by
        rw [remCount, remCount, List.countP_cons, hm]; simp
      have hhit : hitCount (l :: rest) = hitCount rest := by
        rw [hitCount, hitCount, List.countP_cons, hm]; simp
      rw [hcnt, hhit]
      by_cases hf : startsWith fnfTag l = true
      · cases hv : pyInt (colon1 l) with
        | none =>
          rw [processLines_cons_fnf_err rest a b hf hv] at h
          exact absurd h (by simp)
        | some n =>
          rw [processLines_cons_fnf rest a b hf hv] at h
          cases hr : processLines rest a b with
          | error e => rw [hr] at h; exact absurd h (by simp [Except.map])
          | ok r =>
            obtain ⟨r1, r2, r3⟩ := r
            rw [hr] at h
            simp only [Except.map, Except.ok.injEq, Prod.mk.injEq] at h
            obtain ⟨-, ha2, hb2⟩ := h
            obtain ⟨ha, hb⟩ := ih hr
            exact ⟨ha2 ▸ ha, hb2 ▸ hb⟩
      · by_cases hh : startsWith fnhTag l = true
        · cases hv : pyInt (colon1 l) with
          | none =>
            rw [processLines_cons_fnh_err rest a b hh hv] at h
            exact absurd h (by simp)
          | some n =>
            rw [processLines_cons_fnh rest a b hh hv] at h
            cases hr : processLines rest a b with
            | error e => rw [hr] at h; exact absurd h (by simp [Except.map])
            | ok r =>
              obtain ⟨r1, r2, r3⟩ := r
              rw [hr] at h
              simp only [Except.map, Except.ok.injEq, Prod.mk.injEq] at h
              obtain ⟨-, ha2, hb2⟩ := h
              obtain ⟨ha, hb⟩ := ih hr
              exact ⟨ha2 ▸ ha, hb2 ▸ hb⟩
        · rw [processLines_cons_other rest a b hm
            (by rw [Bool.not_eq_true] at hf; exact hf)
            (by rw [Bool.not_eq_true] at hh; exact hh)] at h
          cases hr : processLines rest a b with
          | error e => rw [hr] at h; exact absurd h (by simp [Except.map])
          | ok r =>
            obtain ⟨r1, r2, r3⟩ := r
            rw [hr] at h
            simp only [Except.map, Except.ok.injEq, Prod.mk.injEq] at h
            obtain ⟨-, ha2, hb2⟩ := h
            obtain ⟨ha, hb⟩ := ih hr
            exact ⟨ha2 ▸ ha, hb2 ▸ hb⟩

/-- Processing a concatenation of line lists processes the first part and
continues with the second from the accumulated counters. -/
theorem processLines_append (xs ys : List (List Char)) (a b : Nat) :
    processLines (xs ++ ys) a b =
      (processLines xs a b).bind
        (fun r => (processLines ys r.2.1 r.2.2).map (fun q => (r.1 ++ q.1, q.2))) := by
  induction xs generalizing a b with
  | nil =>
    rw [List.nil_append, processLines_nil]
    simp only [Except.bind]
    cases processLines ys a b with
    | error e => rfl
    | ok q => simp [Except.map]
  | cons l xs ih =>
    rw [List.cons_append]
    by_cases hm : isFnMatch l = true
    · cases hfa : fnaHit l with
      | error e =>
        cases e
        rw [processLines_cons_match_err _ a b hm hfa,
          processLines_cons_match_err _ a b hm hfa]
        rfl
      | ok d =>
        rw [processLines_cons_match _ a b hm hfa,
          processLines_cons_match _ a b hm hfa, ih]
    · simp only [Bool.not_eq_true] at hm
      by_cases hf : startsWith fnfTag l = true
      · cases hv : pyInt (colon1 l) with
        | none =>
          rw [processLines_cons_fnf_err _ a b hf hv,
            processLines_cons_fnf_err _ a b hf hv]
          rfl
        | some n =>
          rw [processLines_cons_fnf _ a b hf hv, processLines_cons_fnf _ a b hf hv, ih]
          cases processLines xs a b with
          | error e => rfl
          | ok r =>
            simp only [Except.bind, Except.map]
            cases processLines ys r.2.1 r.2.2 with
            | error e => rfl
            | ok q => rfl
      · by_cases hh : startsWith fnhTag l = true
        · cases hv : pyInt (colon1 l) with
          | none =>
            rw [processLines_cons_fnh_err _ a b hh hv,
              processLines_cons_fnh_err _ a b hh hv]
            rfl
          | some n =>
            rw [processLines_cons_fnh _ a b hh hv, processLines_cons_fnh _ a b hh hv, ih]
            cases processLines xs a b with
            | error e => rfl
            | ok r =>
              simp only [Except.bind, Except.map]
              cases processLines ys r.2.1 r.2.2 with
              | error e => rfl
              | ok q => rfl
        · simp only [Bool.not_eq_true] at hf hh
          rw [processLines_cons_other _ a b hm hf hh,
            processLines_cons_other _ a b hm hf hh, ih]
          cases processLines xs a b with
          | error e => rfl
          | ok r =>
            simp only [Except.bind, Except.map]
            cases processLines ys r.2.1 r.2.2 with
            | error e => rfl
            | ok q => rfl

/-! ### Decimal rendering and `pyInt` round trip -/

theorem natToCharsAux_irrel (n : Nat) : ∀ fuel fuel' acc, n < fuel → n < fuel' →
    natToCharsAux fuel n acc = natToCharsAux fuel' n acc := by
  induction n using Nat.strong_induction_on with
  | _ n ih =>
    intro fuel fuel' acc hf hf'
    obtain ⟨f, rfl⟩ : ∃ f, fuel = f + 1 := ⟨fuel - 1, by omega⟩
    obtain ⟨f', rfl⟩ : ∃ g, fuel' = g + 1 := ⟨fuel' - 1, by omega⟩
    by_cases h10 : n < 10
    · simp [natToCharsAux, h10]
    · simp only [natToCharsAux, h10, if_false]
      have hlt : n / 10 < n := Nat.div_lt_self (by omega) (by omega)
      exact ih (n / 10) hlt f f' _ (by omega) (by omega)

theorem natToCharsAux_acc (fuel : Nat) : ∀ n acc,
    natToCharsAux fuel n acc = natToCharsAux fuel n [] ++ acc := by
  induction fuel with
  | zero => intro n acc; simp [natToCharsAux]
  | succ f ih =>
    intro n acc
    by_cases h10 : n < 10
    · simp [natToCharsAux, h10]
    · simp only [natToCharsAux, h10, if_false]
      rw [ih (n / 10) (Char.ofNat (48 + n % 10) :: acc),
        ih (n / 10) [Char.ofNat (48 + n % 10)]]
      simp

theorem natToChars_small {n : Nat} (h : n < 10) :
    natToChars n = [Char.ofNat (48 + n)] := by
  simp [natToChars, natToCharsAux, h]

theorem natToChars_step {n : Nat} (h : 10 ≤ n) :
    natToChars n = natToChars (n / 10) ++ [Char.ofNat (48 + n % 10)] := by
  have h10 : ¬n < 10 := by omega
  rw [natToChars, natToChars]
  conv =>
    lhs
    rw [natToCharsAux]
  simp only [h10, if_false]
  rw [natToCharsAux_acc]
  have hlt : n / 10 < n := Nat.div_lt_self (by omega) (by omega)
  rw [natToCharsAux_irrel (n / 10) n (n / 10 + 1) [] hlt (by omega)]

theorem natToChars_digits (n : Nat) :
    ∀ c ∈ natToChars n, ∃ d, d < 10 ∧ c = Char.ofNat (48 + d) := by
  induction n using Nat.strong_induction_on with
  | _ n ih =>
    by_cases h10 : n < 10
    · rw [natToChars_small h10]
      intro c hc
      simp only [List.mem_singleton] at hc
      exact ⟨n, h10, hc⟩
    · rw [natToChars_step (by omega)]
      intro c hc
      rcases List.mem_append.1 hc with hc | hc
      · exact ih (n / 10) (Nat.div_lt_self (by omega) (by omega)) c hc
      · simp only [List.mem_singleton] at hc
        exact ⟨n % 10, by omega, hc⟩

theorem natToChars_ne_nil (n : Nat) : natToChars n ≠ [] := by
  by_cases h10 : n < 10
  · rw [natToChars_small h10]; simp
  · rw [natToChars_step (by omega)]; simp

/-- Digit characters evaluate back to their value. -/
theorem digitVal_ofNat {d : Nat} (h : d < 10) :
    digitVal (Char.ofNat (48 + d)) = some d := by
  interval_cases d <;> decide

theorem pyDigitsAux_digits (ds : List Char)
    (h : ∀ c ∈ ds, (digitVal c).isSome = true) : ∀ acc,
    pyDigitsAux acc ds = some (ds.foldl (fun a c => 10 * a + (digitVal c).getD 0) acc) := by
  induction ds with
  | nil => intro acc; simp [pyDigitsAux]
  | cons c rest ih =>
    intro acc
    have hc : (digitVal c).isSome = true := h c (List.mem_cons_self c rest)
    have hne : ¬c = '_' := by
      intro hc'
      rw [hc'] at hc
      simp [digitVal] at hc
    cases hv : digitVal c with
    | none => rw [hv] at hc; simp at hc
    | some d =>
      have hstep : pyDigitsAux acc (c :: rest) = pyDigitsAux (10 * acc + d) rest := by
        rw [pyDigitsAux.eq_def]
        simp only [if_neg hne, hv]
      rw [hstep, ih (fun x hx => h x (List.mem_cons_of_mem c hx))]
      simp [hv]

theorem foldl_natToChars (n : Nat) : ∀ acc,
    (natToChars n).foldl (fun a c => 10 * a + (digitVal c).getD 0) acc =
      acc * 10 ^ (natToChars n).length + n := by
  induction n using Nat.strong_induction_on with
  | _ n ih =>
    intro acc
    by_cases h10 : n < 10
    · rw [natToChars_small h10]
      simp [digitVal_ofNat h10]
      ring
    · rw [natToChars_step (by omega)]
      rw [List.foldl_append]
      rw [ih (n / 10) (Nat.div_lt_self (by omega) (by omega)) acc]
      simp only [List.foldl_cons, List.foldl_nil, List.length_append,
        List.length_singleton]
      rw [digitVal_ofNat (by omega)]
      simp only [Option.getD_some]
      rw [pow_succ]
      have : 10 * (n / 10) + n % 10 = n := Nat.div_add_mod n 10
      ring_nf
      omega

theorem pyDigits_natToChars (n : Nat) : pyDigits (natToChars n) = some n := by
  have hd := natToChars_digits n
  cases hne : natToChars n with
  | nil => exact absurd hne (natToChars_ne_nil n)
  | cons c rest =>
    have hc : ∃ d, d < 10 ∧ c = Char.ofNat (48 + d) := by
      apply hd; rw [hne]; exact List.mem_cons_self c rest
    obtain ⟨d, hdlt, rfl⟩ := hc
    have hrest : ∀ x ∈ rest, (digitVal x).isSome = true := by
      intro x hx
      have hx' : x ∈ natToChars n := by rw [hne]; exact List.mem_cons_of_mem _ hx
      obtain ⟨e, helt, rfl⟩ := hd x hx'
      rw [digitVal_ofNat helt]; rfl
    have hstep : pyDigits (Char.ofNat (48 + d) :: rest) = pyDigitsAux d rest := by
      rw [pyDigits]
      rw [digitVal_ofNat hdlt]
    rw [hstep, pyDigitsAux_digits rest hrest d]
    have hf := foldl_natToChars n 0
    rw [hne] at hf
    simp only [List.foldl_cons, digitVal_ofNat hdlt, Option.getD_some,
      Nat.mul_zero, Nat.zero_add] at hf
    rw [hf]
    simp

/-- No decimal digit character is Python whitespace, a sign, a newline, a
colon, a comma, or the letter `S`. -/
theorem digit_char_facts {d : Nat} (h : d < 10) :
    isPyWS (Char.ofNat (48 + d)) = false ∧ Char.ofNat (48 + d) ≠ '+' ∧
      Char.ofNat (48 + d) ≠ '-' ∧ Char.ofNat (48 + d) ≠ '\n' ∧
      Char.ofNat (48 + d) ≠ ':' ∧ Char.ofNat (48 + d) ≠ ',' ∧
      Char.ofNat (48 + d) ≠ 'S' := by
  interval_cases d <;> exact ⟨rfl, by decide, by decide, by decide, by decide,
    by decide, by decide⟩

theorem dropWhile_of_none {p : Char → Bool} {s : List Char}
    (h : ∀ c ∈ s, p c = false) : s.dropWhile p = s := by
  cases s with
  | nil => rfl
  | cons c rest =>
    rw [List.dropWhile_cons]
    simp [h c (List.mem_cons_self c rest)]

theorem pyStrip_of_nonWS {s : List Char} (h : ∀ c ∈ s, isPyWS c = false) :
    pyStrip s = s := by
  rw [pyStrip, dropWhile_of_none h, dropWhile_of_none, List.reverse_reverse]
  intro c hc
  exact h c (List.mem_reverse.1 hc)

/-- The characters of `intToChars` are digits or a leading minus sign; in
particular they include no whitespace, newline, colon, comma, or `S`. -/
theorem intToChars_chars (i : Int) :
    ∀ c ∈ intToChars i, isPyWS c = false ∧ c ≠ '\n' ∧ c ≠ ':' ∧ c ≠ 'S' := by
  intro c hc
  rw [intToChars] at hc
  have digitCase : ∀ x ∈ natToChars i.natAbs,
      isPyWS x = false ∧ x ≠ '\n' ∧ x ≠ ':' ∧ x ≠ 'S' := by
    intro x hx
    obtain ⟨d, hd, rfl⟩ := natToChars_digits _ x hx
    obtain ⟨h1, -, -, h4, h5, -, h7⟩ := digit_char_facts hd
    exact ⟨h1, h4, h5, h7⟩
  by_cases hneg : i < 0
  · rw [if_pos hneg] at hc
    rcases List.mem_cons.1 hc with rfl | hc
    · exact ⟨rfl, by decide, by decide, by decide⟩
    · exact digitCase c hc
  · rw [if_neg hneg] at hc
    exact digitCase c hc

/-- `pyInt` after a strip result starting with a minus sign. -/
theorem pyInt_strip_minus {s u : List Char} (h : pyStrip s = '-' :: u) :
    pyInt s = (pyDigits u).map (fun n => -(n : Int)) := by
  rw [pyInt, h]
  simp only [List.headD_cons, List.tail_cons]
  rw [if_neg (show ¬(('-' : Char) = '+') from by decide), if_pos trivial]

/-- `pyInt` after a strip result starting with an unsigned character. -/
theorem pyInt_strip_plain {s u : List Char} {c : Char} (h : pyStrip s = c :: u)
    (h1 : c ≠ '+') (h2 : c ≠ '-') :
    pyInt s = (pyDigits (c :: u)).map (fun n => (n : Int)) := by
  rw [pyInt, h]
  simp only [List.headD_cons, List.tail_cons]
  rw [if_neg h1, if_neg h2]

/-- Python's `int` applied to Python's decimal rendering returns the same
integer: the round trip behind the idempotence of summary-line rewriting. -/
theorem pyInt_intToChars (i : Int) : pyInt (intToChars i) = some i := by
  have hstrip : pyStrip (intToChars i) = intToChars i :=
    pyStrip_of_nonWS (fun c hc => (intToChars_chars i c hc).1)
  by_cases hneg : i < 0
  · have hform : intToChars i = '-' :: natToChars i.natAbs := by
      rw [intToChars, if_pos hneg]
    rw [pyInt_strip_minus (by rw [hstrip, hform]), pyDigits_natToChars]
    have hval : -((i.natAbs : Int)) = i := by omega
    simp only [Option.map]
    exact congrArg some hval
  · have hform : intToChars i = natToChars i.natAbs := by
      rw [intToChars, if_neg hneg]
    cases hne : natToChars i.natAbs with
    | nil => exact absurd hne (natToChars_ne_nil _)
    | cons c rest =>
      have hc : ∃ d, d < 10 ∧ c = Char.ofNat (48 + d) := by
        apply natToChars_digits
        rw [hne]; exact List.mem_cons_self c rest
      obtain ⟨d, hd, rfl⟩ := hc
      obtain ⟨-, hplus, hminus, -⟩ := digit_char_facts hd
      rw [pyInt_strip_plain (by rw [hstrip, hform, hne]) hplus hminus]
      rw [← hne, pyDigits_natToChars]
      have hval : ((i.natAbs : Int)) = i := by omega
      simp only [Option.map]
      exact congrArg some hval

/-- A line with one of the three removable prefixes starts with neither
`FNF:` nor `FNH:`. -/
theorem fnfamily_not_summary {l : List Char}
    (h : (startsWith fnTag l || startsWith fndaTag l || startsWith fnaTag l) = true) :
    startsWith fnfTag l = false ∧ startsWith fnhTag l = false := by
  rcases Bool.or_eq_true_iff.1 h with h' | h'
  · rcases Bool.or_eq_true_iff.1 h' with h'' | h''
    · obtain ⟨t, rfl⟩ := (startsWith_iff _ _).1 h''
      simp [startsWith, fnTag, fnfTag, fnhTag]
    · obtain ⟨t, rfl⟩ := (startsWith_iff _ _).1 h''
      simp [startsWith, fndaTag, fnfTag, fnhTag]
  · obtain ⟨t, rfl⟩ := (startsWith_iff _ _).1 h'
    simp [startsWith, fnaTag, fnfTag, fnhTag]

/-! ### The claims -/

/-- C2: on the single-section document of Scenario A, the filter removes both
destructor-matching lines (the `FN:` and the `FNDA:` record), subtracts two
from `FNF:`, leaves `FNH:` at `1` because removed `FNDA:` lines are not parsed
for hit counts, and reports two removed entries. -/
theorem claim_C2 :
    filter_lcov ("SF:a.cpp\nFN:1,_ZN1XD0Ev\nFNDA:3,_ZN1XD0Ev\nFN:2,real\nFNDA:0,real\nFNF:2\nFNH:1\nend_of_record\n".toList) =
      .ok ("SF:a.cpp\nFN:2,real\nFNDA:0,real\nFNF:0\nFNH:1\nend_of_record\n".toList, 2) := by
  rfl

/-- C3: a line with an `FN:`/`FNDA:`/`FNA:` prefix is dropped and bumps the
shared removed-counter by exactly one precisely when it contains the pattern
`D[012]Ev`; otherwise it passes through unchanged. Concretely,
`FN:10,_ZN3FooD1Ev` is removed and `FN:5,doWork` is retained. -/
theorem claim_C3 :
    (∀ (l : List Char) (rest : List (List Char)) (a b : Nat),
      (startsWith fnTag l || startsWith fndaTag l || startsWith fnaTag l) = true →
      ((containsD l = true →
          processLines (l :: rest) a b =
            (fnaHit l).bind (fun d => processLines rest (a + 1) (b + d))) ∧
        (containsD l = false →
          processLines (l :: rest) a b =
            (processLines rest a b).map (fun r => (l :: r.1, r.2))))) ∧
    processLines ["FN:10,_ZN3FooD1Ev".toList] 0 0 = .ok ([], 1, 0) ∧
    processLines ["FN:5,doWork".toList] 0 0 = .ok (["FN:5,doWork".toList], 0, 0) := by
  refine ⟨?_, by rfl, by rfl⟩
  intro l rest a b hpre
  constructor
  · intro hd
    have hm : isFnMatch l = true := by rw [isFnMatch, hpre, hd]; rfl
    cases hfa : fnaHit l with
    | error e =>
      cases e
      rw [processLines_cons_match_err rest a b hm hfa]
      rfl
    | ok d =>
      rw [processLines_cons_match rest a b hm hfa]
      rfl
  · intro hd
    have hm : isFnMatch l = false := by rw [isFnMatch, hpre, hd]; rfl
    obtain ⟨hf, hh⟩ := fnfamily_not_summary hpre
    exact processLines_cons_other rest a b hm hf hh

/-- C9: summary rewriting uses exact signed subtraction with no lower bound:
when the accumulated adjustment exceeds the parsed value, the emitted
`FNF:`/`FNH:` line carries a literal minus sign; on a section with one
destructor counted three times (`FN:` + `FNDA:` + `FNA:`), `FNF:1` becomes
`FNF:-2` and `FNH:0` becomes `FNH:-1`. -/
theorem claim_C9 :
    (∀ (l : List Char) (n : Int) (rest : List (List Char)) (a b : Nat),
      startsWith fnfTag l = true → pyInt (colon1 l) = some n → n < (a : Int) →
      processLines (l :: rest) a b =
        (processLines rest a b).map
          (fun r => ((fnfTag ++ '-' :: natToChars (n - (a : Int)).natAbs) :: r.1, r.2))) ∧
    (∀ (l : List Char) (n : Int) (rest : List (List Char)) (a b : Nat),
      startsWith fnhTag l = true → pyInt (colon1 l) = some n → n < (b : Int) →
      processLines (l :: rest) a b =
        (processLines rest a b).map
          (fun r => ((fnhTag ++ '-' :: natToChars (n - (b : Int)).natAbs) :: r.1, r.2))) ∧
    filter_lcov ("SF:a\nFN:x,_ZND0Ev\nFNDA:1,_ZND0Ev\nFNA:_ZND0Ev,1\nFNF:1\nFNH:0\nend_of_record\n".toList) =
      .ok ("SF:a\nFNF:-2\nFNH:-1\nend_of_record\n".toList, 3) := by
  refine ⟨?_, ?_, by rfl⟩
  · intro l n rest a b h1 h2 hlt
    rw [processLines_cons_fnf rest a b h1 h2, intToChars, if_pos (by omega)]
  · intro l n rest a b h1 h2 hlt
    rw [processLines_cons_fnh rest a b h1 h2, intToChars, if_pos (by omega)]

/-- C10: every `FNF:`/`FNH:` line whose first colon field parses is re-emitted
in the canonical form built from the prefix and the decimal rendering of the
adjusted value, even with zero removals; whitespace, a plus sign, leading
zeros, and text after a second colon are discarded. -/
theorem claim_C10 :
    (∀ (l : List Char) (n : Int) (rest : List (List Char)) (a b : Nat),
      startsWith fnfTag l = true → pyInt (colon1 l) = some n →
      processLines (l :: rest) a b =
        (processLines rest a b).map
          (fun r => ((fnfTag ++ intToChars (n - (a : Int))) :: r.1, r.2))) ∧
    (∀ (l : List Char) (n : Int) (rest : List (List Char)) (a b : Nat),
      startsWith fnhTag l = true → pyInt (colon1 l) = some n →
      processLines (l :: rest) a b =
        (processLines rest a b).map
          (fun r => ((fnhTag ++ intToChars (n - (b : Int))) :: r.1, r.2))) ∧
    processLines ["FNF: 3 ".toList] 0 0 = .ok (["FNF:3".toList], 0, 0) ∧
    processLines ["FNF:3:extra".toList] 0 0 = .ok (["FNF:3".toList], 0, 0) ∧
    processLines ["FNH:+007".toList] 0 0 = .ok (["FNH:7".toList], 0, 0) := by
  exact ⟨fun l n rest a b h1 h2 => processLines_cons_fnf rest a b h1 h2,
    fun l n rest a b h1 h2 => processLines_cons_fnh rest a b h1 h2,
    by rfl, by rfl, by rfl⟩

/-- Removed-record contribution of one split segment to the reported total. -/
def segRemoved (seg : List Char) : Nat :=
  if startsWith sfTag seg = true then 0
  else if hasNonWS seg = true then remCount (splitC '\n' seg) else 0

theorem processSection_count {seg txt : List Char} {c : Nat}
    (h : processSection seg = .ok (txt, c)) : c = remCount (splitC '\n' seg) := by
  rw [processSection] at h
  cases hr : processLines (splitC '\n' seg) 0 0 with
  | error e => rw [hr] at h; exact absurd h (by simp [Except.map])
  | ok r =>
    obtain ⟨ls, a, b⟩ := r
    rw [hr] at h
    simp only [Except.map, Except.ok.injEq, Prod.mk.injEq] at h
    have ha := (processLines_adjusts hr).1
    omega

theorem processSegments_total : ∀ {segs : List (List Char)} {o : List Char} {t : Nat},
    processSegments segs = .ok (o, t) → t = (segs.map segRemoved).sum := by
  intro segs
  induction segs with
  | nil =>
    intro o t h
    rw [processSegments] at h
    simp only [Except.ok.injEq, Prod.mk.injEq] at h
    simp [← h.2]
  | cons seg rest ih =>
    intro o t h
    rw [processSegments] at h
    by_cases hsf : startsWith sfTag seg = true
    · rw [if_pos hsf] at h
      cases hr : processSegments rest with
      | error e => rw [hr] at h; exact absurd h (by simp [Except.map])
      | ok r =>
        rw [hr] at h
        simp only [Except.map, Except.ok.injEq, Prod.mk.injEq] at h
        rw [List.map_cons, List.sum_cons, segRemoved, if_pos hsf, ← ih hr, ← h.2]
        omega
    · rw [if_neg hsf] at h
      by_cases hnw : hasNonWS seg = true
      · rw [if_pos hnw] at h
        cases hps : processSection seg with
        | error e => rw [hps] at h; exact absurd h (by simp)
        | ok p =>
          obtain ⟨txt, c⟩ := p
          rw [hps] at h
          cases hr : processSegments rest with
          | error e => rw [hr] at h; exact absurd h (by simp [Except.map])
          | ok r =>
            rw [hr] at h
            simp only [Except.map, Except.ok.injEq, Prod.mk.injEq] at h
            rw [List.map_cons, List.sum_cons, segRemoved, if_neg hsf, if_pos hnw,
              ← processSection_count hps, ← ih hr, ← h.2]
      · rw [if_neg hnw] at h
        rw [List.map_cons, List.sum_cons, segRemoved, if_neg hsf, if_neg hnw, ← ih h]
        omega

/-- C1: in a section whose removable records all precede the summary lines,
the emitted `FNF:` value is the parsed original minus the number of records
removed from that same section (started from zero, so other sections cannot
contribute), the emitted `FNH:` value is the original minus the number of
removed positive `FNA:` records of the section, and the reported total is the
sum of the per-segment removal counts over the whole document. -/
theorem claim_C1 :
    (∀ (xs ys : List (List Char)) (l : List Char) (n : Int)
        (o : List (List Char)) (a' b' : Nat),
      startsWith fnfTag l = true → pyInt (colon1 l) = some n →
      (∀ y ∈ ys, isFnMatch y = false) →
      processLines (xs ++ l :: ys) 0 0 = .ok (o, a', b') →
      ∃ o₁ o₂ b₁,
        processLines xs 0 0 = .ok (o₁, remCount (xs ++ l :: ys), b₁) ∧
        o = o₁ ++ (fnfTag ++ intToChars (n - (remCount (xs ++ l :: ys) : Int))) :: o₂) ∧
    (∀ (xs ys : List (List Char)) (l : List Char) (n : Int)
        (o : List (List Char)) (a' b' : Nat),
      startsWith fnhTag l = true → pyInt (colon1 l) = some n →
      (∀ y ∈ ys, isFnMatch y = false) →
      processLines (xs ++ l :: ys) 0 0 = .ok (o, a', b') →
      ∃ o₁ o₂ a₁,
        processLines xs 0 0 = .ok (o₁, a₁, hitCount (xs ++ l :: ys)) ∧
        o = o₁ ++ (fnhTag ++ intToChars (n - (hitCount (xs ++ l :: ys) : Int))) :: o₂) ∧
    (∀ (content out : List Char) (t : Nat),
      filter_lcov content = .ok (out, t) →
      t = ((splitSF content).map segRemoved).sum) := by
  refine ⟨?_, ?_, ?_⟩
  · intro xs ys l n o a' b' hf hn hys h
    rw [processLines_append] at h
    cases h1 : processLines xs 0 0 with
    | error e => rw [h1] at h; exact absurd h (by simp [Except.bind])
    | ok r =>
      obtain ⟨o₁, a₁, b₁⟩ := r
      rw [h1] at h
      simp only [Except.bind] at h
      rw [processLines_cons_fnf ys a₁ b₁ hf hn] at h
      cases h2 : processLines ys a₁ b₁ with
      | error e => rw [h2] at h; exact absurd h (by simp [Except.map])
      | ok q =>
        obtain ⟨o₂, a₂, b₂⟩ := q
        rw [h2] at h
        simp only [Except.map, Except.ok.injEq, Prod.mk.injEq] at h
        obtain ⟨ho, -, -⟩ := h
        have hA := (processLines_adjusts h1).1
        have htot : remCount (xs ++ l :: ys) = a₁ := by
          rw [remCount, List.countP_append, List.countP_cons]
          simp only [fnf_not_match hf, Bool.false_eq_true, if_false]
          have hys0 : (List.countP (fun y => isFnMatch y) ys) = 0 := by
            rw [List.countP_eq_zero]
            intro y hy
            simp [hys y hy]
          rw [remCount] at hA
          omega
        refine ⟨o₁, o₂, b₁, ?_, ?_⟩
        · rw [htot]
        · rw [htot, ← ho]
  · intro xs ys l n o a' b' hf hn hys h
    rw [processLines_append] at h
    cases h1 : processLines xs 0 0 with
    | error e => rw [h1] at h; exact absurd h (by simp [Except.bind])
    | ok r =>
      obtain ⟨o₁, a₁, b₁⟩ := r
      rw [h1] at h
      simp only [Except.bind] at h
      rw [processLines_cons_fnh ys a₁ b₁ hf hn] at h
      cases h2 : processLines ys a₁ b₁ with
      | error e => rw [h2] at h; exact absurd h (by simp [Except.map])
      | ok q =>
        obtain ⟨o₂, a₂, b₂⟩ := q
        rw [h2] at h
        simp only [Except.map, Except.ok.injEq, Prod.mk.injEq] at h
        obtain ⟨ho, -, -⟩ := h
        have hB := (processLines_adjusts h1).2
        have htot : hitCount (xs ++ l :: ys) = b₁ := by
          rw [hitCount, List.countP_append, List.countP_cons]
          simp only [fnh_not_match hf, Bool.false_and, Bool.false_eq_true, if_false]
          have hys0 : (List.countP (fun y => isFnMatch y && fnaPos y) ys) = 0 := by
            rw [List.countP_eq_zero]
            intro y hy
            simp [hys y hy]
          rw [hitCount] at hB
          omega
        refine ⟨o₁, o₂, a₁, ?_, ?_⟩
        · rw [htot]
        · rw [htot, ← ho]
  · intro content out t h
    exact processSegments_total h

/-- C1 witness: a section with one removed `FN:` record before its `FNF:2`
line emits `FNF:1`. -/
theorem claim_C1_witness :
    ∃ o₁ o₂ b₁,
      processLines ["FN:1,_ZND0Ev".toList] 0 0 = .ok (o₁, 1, b₁) ∧
      ["FNF:1".toList, "end_of_record".toList, ([] : List Char)] =
        o₁ ++ "FNF:1".toList :: o₂ :=
  claim_C1.1 ["FN:1,_ZND0Ev".toList] ["end_of_record".toList, ([] : List Char)]
    ("FNF:2".toList) 2 ["FNF:1".toList, "end_of_record".toList, ([] : List Char)] 1 0
    (by decide) (by rfl) (by decide) (by rfl)

/-- C3 witness: the destructor record is removed with the counter bumped, the
plain record passes through. -/
theorem claim_C3_witness :
    processLines ["FN:10,_ZN3FooD1Ev".toList] 2 3 =
      (fnaHit ("FN:10,_ZN3FooD1Ev".toList)).bind
        (fun d => processLines [] (2 + 1) (3 + d)) ∧
    processLines ["FN:5,doWork".toList] 2 3 =
      (processLines [] 2 3).map (fun r => ("FN:5,doWork".toList :: r.1, r.2)) := by
  constructor
  · exact (claim_C3.1 ("FN:10,_ZN3FooD1Ev".toList) [] 2 3 (by decide)).1 (by decide)
  · exact (claim_C3.1 ("FN:5,doWork".toList) [] 2 3 (by decide)).2 (by decide)

/-- C9 witness: `FNF:1` with three accumulated removals emits `FNF:-2`, and
`FNH:0` with two accumulated hits emits `FNH:-2`. -/
theorem claim_C9_witness :
    processLines ["FNF:1".toList] 3 0 =
      (processLines [] 3 0).map (fun r => ("FNF:-2".toList :: r.1, r.2)) ∧
    processLines ["FNH:0".toList] 0 2 =
      (processLines [] 0 2).map (fun r => ("FNH:-2".toList :: r.1, r.2)) := by
  constructor
  · exact claim_C9.1 ("FNF:1".toList) 1 [] 3 0 (by decide) (by rfl) (by decide)
  · exact claim_C9.2.1 ("FNH:0".toList) 0 [] 0 2 (by decide) (by rfl) (by decide)

/-- C10 witness: `FNF:5` with two removals re-emits `FNF:3`, and the padded
signed field `FNH: +07 ` re-emits canonically as `FNH:7`. -/
theorem claim_C10_witness :
    processLines ["FNF:5".toList] 2 0 =
      (processLines [] 2 0).map (fun r => ("FNF:3".toList :: r.1, r.2)) ∧
    processLines ["FNH: +07 ".toList] 0 0 =
      (processLines [] 0 0).map (fun r => ("FNH:7".toList :: r.1, r.2)) := by
  constructor
  · exact claim_C10.1 ("FNF:5".toList) 5 [] 2 0 (by decide) (by rfl)
  · exact claim_C10.2.1 ("FNH: +07 ".toList) 7 [] 0 0 (by decide) (by rfl)

/-! ### Structure of the regex split -/

theorem sf_shape {l : List Char} (h : startsWith sfTag l = true) :
    ∃ t, l = 'S' :: 'F' :: ':' :: t := by
  obtain ⟨t, rfl⟩ := (startsWith_iff _ _).1 h
  exact ⟨t, rfl⟩

theorem takeToNl_sound : ∀ {u : List Char} {inner after : List Char},
    takeToNl u = some (inner, after) →
    u = inner ++ '\n' :: after ∧ '\n' ∉ inner := by
  intro u
  induction u with
  | nil => intro inner after h; exact absurd h (by simp [takeToNl])
  | cons c rest ih =>
    intro inner after h
    rw [takeToNl] at h
    by_cases hc : c = '\n'
    · rw [if_pos hc] at h
      simp only [Option.some.injEq, Prod.mk.injEq] at h
      constructor
      · rw [← h.1, ← h.2, hc]
        rfl
      · rw [← h.1]
        exact List.not_mem_nil '\n'
    · rw [if_neg hc] at h
      cases ht : takeToNl rest with
      | none => rw [ht] at h; exact absurd h (by simp)
      | some p =>
        obtain ⟨i, a⟩ := p
        rw [ht] at h
        simp only [Option.map_some', Option.some.injEq, Prod.mk.injEq] at h
        obtain ⟨hi, ha⟩ := h
        obtain ⟨hu, hni⟩ := ih ht
        constructor
        · rw [← hi, ← ha, hu]
          rfl
        · rw [← hi]
          simp only [List.mem_cons, not_or]
          exact ⟨fun he => hc he.symm, hni⟩

theorem findMarker_sound : ∀ {s p m r : List Char},
    findMarker s = some (p, m, r) →
    ∃ inner, s = p ++ m ++ r ∧ m = 'S' :: 'F' :: ':' :: (inner ++ ['\n']) ∧
      '\n' ∉ inner := by
  intro s
  induction s with
  | nil => intro p m r h; exact absurd h (by simp [findMarker])
  | cons c rest ih =>
    intro p m r h
    rw [findMarker] at h
    by_cases hsf : startsWith sfTag (c :: rest) = true
    · rw [if_pos hsf] at h
      obtain ⟨t, hshape⟩ := sf_shape hsf
      have hc : c = 'S' := by injection hshape
      have ht : rest = 'F' :: ':' :: t := by injection hshape with h1 h2
      cases htn : takeToNl (rest.drop 2) with
      | none => rw [htn] at h; exact absurd h (by simp)
      | some q =>
        obtain ⟨inner, after⟩ := q
        rw [htn] at h
        simp only [Option.some.injEq, Prod.mk.injEq] at h
        obtain ⟨hp, hm, hr⟩ := h
        have hdrop := takeToNl_sound htn
        have ht2 : t = inner ++ '\n' :: after := by
          have hdt : List.drop 2 rest = t := by
            rw [ht]
            rfl
          rw [hdt] at hdrop
          exact hdrop.1
        refine ⟨inner, ?_, hm.symm, hdrop.2⟩
        rw [← hp, ← hm, ← hr, hc, ht, ht2]
        simp

    · rw [if_neg hsf] at h
      cases hf : findMarker rest with
      | none => rw [hf] at h; exact absurd h (by simp)
      | some q =>
        obtain ⟨p', m', r'⟩ := q
        rw [hf] at h
        simp only [Option.map_some', Option.some.injEq, Prod.mk.injEq] at h
        obtain ⟨hp, hm, hr⟩ := h
        obtain ⟨inner, hs, hmsh, hni⟩ := ih hf
        refine ⟨inner, ?_, hm ▸ hmsh, hni⟩
        rw [← hp, ← hm, ← hr, hs]
        rfl

theorem findMarker_rest_len {s p m r : List Char}
    (hm : findMarker s = some (p, m, r)) : r.length + 4 ≤ s.length := by
  obtain ⟨inner, hs, hmsh, -⟩ := findMarker_sound hm
  rw [hs, hmsh]
  simp only [List.length_append, List.length_cons]
  omega

theorem splitSFAux_irrel : ∀ (n : Nat) (s : List Char) (fuel fuel' : Nat),
    s.length ≤ n → s.length < fuel → s.length < fuel' →
    splitSFAux fuel s = splitSFAux fuel' s := by
  intro n
  induction n with
  | zero =>
    intro s fuel fuel' hn hf hf'
    obtain ⟨f, rfl⟩ : ∃ f, fuel = f + 1 := ⟨fuel - 1, by omega⟩
    obtain ⟨f', rfl⟩ : ∃ g, fuel' = g + 1 := ⟨fuel' - 1, by omega⟩
    have hs : s = [] := List.length_eq_zero.1 (by omega)
    subst hs
    rfl
  | succ k ih =>
    intro s fuel fuel' hn hf hf'
    obtain ⟨f, rfl⟩ : ∃ f, fuel = f + 1 := ⟨fuel - 1, by omega⟩
    obtain ⟨f', rfl⟩ : ∃ g, fuel' = g + 1 := ⟨fuel' - 1, by omega⟩
    rw [splitSFAux, splitSFAux]
    cases hm : findMarker s with
    | none => rfl
    | some t =>
      obtain ⟨p, m, r⟩ := t
      have hlen := findMarker_rest_len hm
      show p :: m :: splitSFAux f r = p :: m :: splitSFAux f' r
      rw [ih r f f' (by omega) (by omega) (by omega)]

/-- One-step unfolding of the split: no marker gives a single piece, a
leftmost marker gives the pre-piece, the marker, and the split of the rest. -/
theorem splitSF_eq (s : List Char) :
    splitSF s = match findMarker s with
      | none => [s]
      | some (p, m, r) => p :: m :: splitSF r := by
  cases hm : findMarker s with
  | none =>
    show splitSFAux (s.length + 1) s = [s]
    rw [splitSFAux, hm]
  | some t =>
    obtain ⟨p, m, r⟩ := t
    have hlen := findMarker_rest_len hm
    show splitSFAux (s.length + 1) s = p :: m :: splitSFAux (r.length + 1) r
    rw [splitSFAux, hm]
    show p :: m :: splitSFAux s.length r = p :: m :: splitSFAux (r.length + 1) r
    rw [splitSFAux_irrel s.length r s.length (r.length + 1)
      (by omega) (by omega) (by omega)]

theorem splitSF_flatten_aux : ∀ (n : Nat) (s : List Char), s.length ≤ n →
    (splitSF s).flatten = s := by
  intro n
  induction n with
  | zero =>
    intro s hn
    have hs : s = [] := List.length_eq_zero.1 (by omega)
    subst hs
    rw [splitSF_eq]
    rfl
  | succ k ih =>
    intro s hn
    rw [splitSF_eq]
    cases hm : findMarker s with
    | none => simp
    | some t =>
      obtain ⟨p, m, r⟩ := t
      have hlen := findMarker_rest_len hm
      obtain ⟨inner, hs, hmsh, -⟩ := findMarker_sound hm
      show (p :: m :: splitSF r).flatten = s
      simp only [List.flatten_cons]
      rw [ih r (by omega), hs]
      simp [List.append_assoc]

/-- C4 counterexample: a document whose only content segment is a single
blank line before the first `SF:` marker does not round-trip — the
whitespace-only segment is dropped by the `section.strip()` test, so the
output lacks the blank line the claim requires. -/
theorem claim_C4_counterexample :
    filter_lcov ("\nSF:a.cpp\n".toList) = .ok ("SF:a.cpp\n".toList, 0) ∧
    "SF:a.cpp\n".toList ≠ "\nSF:a.cpp\n".toList := by
  exact ⟨by rfl, by decide⟩

/-- C4 amended: inside a processed content segment, every line with none of
the five record prefixes passes through unchanged in its position; however a
content segment consisting entirely of whitespace is dropped from the output
altogether, so blank-line-only segments do not round-trip. -/
theorem claim_C4_amended :
    (∀ (xs ys : List (List Char)) (l : List Char) (a b : Nat),
      isFnMatch l = false → startsWith fnfTag l = false →
      startsWith fnhTag l = false →
      processLines (xs ++ l :: ys) a b =
        (processLines xs a b).bind
          (fun r => (processLines ys r.2.1 r.2.2).map
            (fun q => (r.1 ++ l :: q.1, q.2)))) ∧
    (∀ (seg : List Char) (rest : List (List Char)),
      startsWith sfTag seg = false → hasNonWS seg = false →
      processSegments (seg :: rest) = processSegments rest) := by
  constructor
  · intro xs ys l a b h1 h2 h3
    rw [processLines_append]
    cases processLines xs a b with
    | error e => rfl
    | ok r =>
      simp only [Except.bind]
      rw [processLines_cons_other ys r.2.1 r.2.2 h1 h2 h3]
      cases processLines ys r.2.1 r.2.2 with
      | error e => rfl
      | ok q => rfl
  · intro seg rest h1 h2
    rw [processSegments, if_neg (by simp [h1]), if_neg (by simp [h2])]

/-- C5 counterexample: in `DA:1,2xSF:a.cpp\n` the text `SF:a.cpp` begins in
the middle of the only line, yet the split captures `SF:a.cpp\n` as a piece
that passes the marker classification, while no line of the input starts
with `SF:`. -/
theorem claim_C5_counterexample :
    splitSF ("DA:1,2xSF:a.cpp\n".toList) =
      ["DA:1,2x".toList, "SF:a.cpp\n".toList, ([] : List Char)] ∧
    startsWith sfTag ("SF:a.cpp\n".toList) = true ∧
    (∀ l ∈ splitC '\n' ("DA:1,2xSF:a.cpp\n".toList),
      startsWith sfTag l = false) := by
  exact ⟨by rfl, by rfl, by decide⟩

/-- C5 amended: the partition preserves every character — concatenating the
pieces in order restores the input — and each captured marker piece is an
occurrence of `SF:` extended through the next newline at an arbitrary
position in the text, not necessarily at the start of a line. -/
theorem claim_C5_amended :
    (∀ s : List Char, (splitSF s).flatten = s) ∧
    (∀ s p m r : List Char, findMarker s = some (p, m, r) →
      ∃ inner, s = p ++ m ++ r ∧
        m = 'S' :: 'F' :: ':' :: (inner ++ ['\n']) ∧ '\n' ∉ inner) := by
  constructor
  · intro s
    exact splitSF_flatten_aux s.length s (le_refl _)
  · intro s p m r hm
    exact findMarker_sound hm

/-- C4 amended witness: a pass-through line is preserved in place, and a
newline-only segment is dropped. -/
theorem claim_C4_amended_witness :
    processLines (["DA:1,0".toList] ++ "end_of_record".toList :: []) 0 0 =
      (processLines ["DA:1,0".toList] 0 0).bind
        (fun r => (processLines [] r.2.1 r.2.2).map
          (fun q => (r.1 ++ "end_of_record".toList :: q.1, q.2))) ∧
    processSegments ["\n".toList] = processSegments [] := by
  exact ⟨claim_C4_amended.1 ["DA:1,0".toList] [] ("end_of_record".toList) 0 0
      (by decide) (by decide) (by decide),
    claim_C4_amended.2 ("\n".toList) [] (by decide) (by decide)⟩

/-- C5 amended witness: concatenation restores a two-section text, and the
mid-line marker of `xSF:a\n` is characterized. -/
theorem claim_C5_amended_witness :
    (splitSF ("a\nSF:x\nb".toList)).flatten = "a\nSF:x\nb".toList ∧
    (∃ inner, "xSF:a\n".toList = "x".toList ++ "SF:a\n".toList ++ ([] : List Char) ∧
      "SF:a\n".toList = 'S' :: 'F' :: ':' :: (inner ++ ['\n']) ∧ '\n' ∉ inner) := by
  exact ⟨claim_C5_amended.1 _,
    claim_C5_amended.2 ("xSF:a\n".toList) ("x".toList) ("SF:a\n".toList) [] (by rfl)⟩

/-! ### Propagation of `ValueError` -/

/-- A line whose processing raises `ValueError`: a removed `FNA:` record with
an unparseable hit field, or a summary line with an unparseable count field. -/
def badLine (l : List Char) : Prop :=
  (isFnMatch l = true ∧ fnaHit l = .error ()) ∨
  (startsWith fnfTag l = true ∧ pyInt (colon1 l) = none) ∨
  (startsWith fnhTag l = true ∧ pyInt (colon1 l) = none)

theorem processLines_error_of_mem : ∀ {ls : List (List Char)} {l : List Char}
    (a b : Nat), l ∈ ls → badLine l → processLines ls a b = .error () := by
  intro ls
  induction ls with
  | nil => intro l a b hmem; exact absurd hmem (List.not_mem_nil l)
  | cons x rest ih =>
    intro l a b hmem hbad
    rcases List.mem_cons.1 hmem with rfl | hmem
    · rcases hbad with ⟨h1, h2⟩ | ⟨h1, h2⟩ | ⟨h1, h2⟩
      · exact processLines_cons_match_err rest a b h1 h2
      · exact processLines_cons_fnf_err rest a b h1 h2
      · exact processLines_cons_fnh_err rest a b h1 h2
    · by_cases hm : isFnMatch x = true
      · cases hfa : fnaHit x with
        | error e =>
          cases e
          exact processLines_cons_match_err rest a b hm hfa
        | ok d =>
          rw [processLines_cons_match rest a b hm hfa]
          exact ih (a + 1) (b + d) hmem hbad
      · simp only [Bool.not_eq_true] at hm
        by_cases hf : startsWith fnfTag x = true
        · cases hv : pyInt (colon1 x) with
          | none => exact processLines_cons_fnf_err rest a b hf hv
          | some n =>
            rw [processLines_cons_fnf rest a b hf hv, ih a b hmem hbad]
            rfl
        · by_cases hh : startsWith fnhTag x = true
          · cases hv : pyInt (colon1 x) with
            | none => exact processLines_cons_fnh_err rest a b hh hv
            | some n =>
              rw [processLines_cons_fnh rest a b hh hv, ih a b hmem hbad]
              rfl
          · simp only [Bool.not_eq_true] at hf hh
            rw [processLines_cons_other rest a b hm hf hh, ih a b hmem hbad]
            rfl

theorem processSection_error {seg : List Char}
    (h : processLines (splitC '\n' seg) 0 0 = .error ()) :
    processSection seg = .error () := by
  rw [processSection, h]
  rfl

theorem processSegments_error_of_mem : ∀ {segs : List (List Char)}
    {seg : List Char}, seg ∈ segs → startsWith sfTag seg = false →
    hasNonWS seg = true → processSection seg = .error () →
    processSegments segs = .error () := by
  intro segs
  induction segs with
  | nil => intro seg hmem; exact absurd hmem (List.not_mem_nil seg)
  | cons x rest ih =>
    intro seg hmem h1 h2 h3
    rcases List.mem_cons.1 hmem with rfl | hmem
    · rw [processSegments, if_neg (by simp [h1]), if_pos h2, h3]
    · rw [processSegments]
      by_cases hx1 : startsWith sfTag x = true
      · rw [if_pos hx1, ih hmem h1 h2 h3]
        rfl
      · rw [if_neg hx1]
        by_cases hx2 : hasNonWS x = true
        · rw [if_pos hx2]
          cases hps : processSection x with
          | error e => cases e; rfl
          | ok p =>
            rw [ih hmem h1 h2 h3]
            rfl
        · rw [if_neg hx2]
          exact ih hmem h1 h2 h3

/-- Characters of a split piece are characters of the split text. -/
theorem splitC_chars : ∀ {sep : Char} {s l : List Char},
    l ∈ splitC sep s → ∀ c ∈ l, c ∈ s := by
  intro sep s
  induction s with
  | nil =>
    intro l hl c hc
    rw [splitC] at hl
    simp only [List.mem_singleton] at hl
    subst hl
    exact absurd hc (List.not_mem_nil c)
  | cons x rest ih =>
    intro l hl c hc
    rw [splitC] at hl
    by_cases hx : x = sep
    · rw [if_pos hx] at hl
      rcases List.mem_cons.1 hl with rfl | hl
      · exact absurd hc (List.not_mem_nil c)
      · exact List.mem_cons_of_mem x (ih hl c hc)
    · rw [if_neg hx] at hl
      cases hsp : splitC sep rest with
      | nil =>
        rw [hsp] at hl
        simp only [List.mem_singleton] at hl
        subst hl
        simp only [List.mem_singleton] at hc
        subst hc
        exact List.mem_cons_self c rest
      | cons l0 ls =>
        rw [hsp] at hl
        rcases List.mem_cons.1 hl with rfl | hl
        · rcases List.mem_cons.1 hc with rfl | hc
          · exact List.mem_cons_self c rest
          · have hl0 : l0 ∈ splitC sep rest := by rw [hsp]; exact List.mem_cons_self l0 ls
            exact List.mem_cons_of_mem x (ih hl0 c hc)
        · have hls : l ∈ splitC sep rest := by rw [hsp]; exact List.mem_cons_of_mem l0 hl
          exact List.mem_cons_of_mem x (ih hls c hc)

/-- A segment containing a line with a non-whitespace character passes the
`section.strip()` test. -/
theorem hasNonWS_of_mem_line {seg l : List Char} {c : Char}
    (hl : l ∈ splitC '\n' seg) (hc : c ∈ l) (hw : isPyWS c = false) :
    hasNonWS seg = true := by
  rw [hasNonWS, List.any_eq_true]
  refine ⟨c, splitC_chars hl c hc, ?_⟩
  rw [hw]
  rfl

/-- C6 counterexample: `FNA:foo,bar` has the unparseable second field `bar`,
but because the line does not contain the destructor pattern it is never
parsed, and the filter succeeds instead of failing. -/
theorem claim_C6_counterexample :
    filter_lcov ("SF:a\nFNA:foo,bar\nend_of_record\n".toList) =
      .ok ("SF:a\nFNA:foo,bar\nend_of_record\n".toList, 0) ∧
    (splitC ',' ("FNA:foo,bar".toList)).getD 1 [] = "bar".toList ∧
    pyInt ("bar".toList) = none := by
  exact ⟨by rfl, by rfl, by rfl⟩

/-- C6 amended: only a removed `FNA:` line — one that matches the destructor
pattern — with at least two comma-separated fields and an unparseable second
field makes the filter fail; such a line anywhere in a content segment makes
the whole run return the error with no output produced. -/
theorem claim_C6_amended :
    ∀ (content seg l : List Char),
      seg ∈ splitSF content → startsWith sfTag seg = false →
      l ∈ splitC '\n' seg → isFnMatch l = true → startsWith fnaTag l = true →
      2 ≤ (splitC ',' l).length → pyInt ((splitC ',' l).getD 1 []) = none →
      filter_lcov content = .error () := by
  intro content seg l hseg hsf hl hm hfna hlen hpy
  have hfae : fnaHit l = .error () := by
    rw [fnaHit, if_pos hfna]
    simp only [if_pos hlen]
    rw [hpy]
  have hFmem : 'F' ∈ l := by
    obtain ⟨t, rfl⟩ := (startsWith_iff fnaTag l).1 hfna
    exact List.mem_cons_self 'F' _
  have hnw : hasNonWS seg = true := hasNonWS_of_mem_line hl hFmem (by decide)
  have hsec : processSection seg = .error () :=
    processSection_error (processLines_error_of_mem 0 0 hl (Or.inl ⟨hm, hfae⟩))
  show processSegments (splitSF content) = .error ()
  exact processSegments_error_of_mem hseg hsf hnw hsec

/-- C6 amended witness: a matching `FNA:` record with unparseable hit field
aborts the whole run. -/
theorem claim_C6_amended_witness :
    filter_lcov ("SF:a\nFNA:_ZN1XD0Ev,bad\n".toList) = .error () :=
  claim_C6_amended ("SF:a\nFNA:_ZN1XD0Ev,bad\n".toList)
    ("FNA:_ZN1XD0Ev,bad\n".toList) ("FNA:_ZN1XD0Ev,bad".toList)
    (by decide) (by decide) (by decide) (by decide) (by decide) (by decide)
    (by rfl)

/-- C7 counterexample: the `FNF:` line `FNF:3:extra` has the unparseable
remainder `3:extra` after its colon, yet the filter succeeds — only the text
between the first and second colon is parsed — and rewrites it to `FNF:3`. -/
theorem claim_C7_counterexample :
    filter_lcov ("SF:a\nFNF:3:extra\n".toList) =
      .ok ("SF:a\nFNF:3\n".toList, 0) ∧
    pyInt ("3:extra".toList) = none := by
  exact ⟨by rfl, by rfl⟩

/-- C7 amended: an `FNF:`/`FNH:` line whose text between the first colon and
the following colon or end of line is not a parseable integer makes the
filter fail wherever it occurs in a content segment; the error is returned
instead of any output, since the output file is opened only after the whole
transformation. -/
theorem claim_C7_amended :
    ∀ (content seg l : List Char),
      seg ∈ splitSF content → startsWith sfTag seg = false →
      l ∈ splitC '\n' seg →
      (startsWith fnfTag l = true ∨ startsWith fnhTag l = true) →
      pyInt (colon1 l) = none →
      filter_lcov content = .error () := by
  intro content seg l hseg hsf hl hsum hpy
  have hFmem : 'F' ∈ l := by
    rcases hsum with h | h
    · obtain ⟨t, rfl⟩ := (startsWith_iff fnfTag l).1 h
      exact List.mem_cons_self 'F' _
    · obtain ⟨t, rfl⟩ := (startsWith_iff fnhTag l).1 h
      exact List.mem_cons_self 'F' _
  have hnw : hasNonWS seg = true := hasNonWS_of_mem_line hl hFmem (by decide)
  have hbad : badLine l := by
    rcases hsum with h | h
    · exact Or.inr (Or.inl ⟨h, hpy⟩)
    · exact Or.inr (Or.inr ⟨h, hpy⟩)
  have hsec : processSection seg = .error () :=
    processSection_error (processLines_error_of_mem 0 0 hl hbad)
  show processSegments (splitSF content) = .error ()
  exact processSegments_error_of_mem hseg hsf hnw hsec

/-- C7 amended witness: `FNF:abc` aborts the run with the error (Scenario B). -/
theorem claim_C7_amended_witness :
    filter_lcov ("SF:a\nFNF:abc\n".toList) = .error () :=
  claim_C7_amended ("SF:a\nFNF:abc\n".toList) ("FNF:abc\n".toList)
    ("FNF:abc".toList) (by decide) (by decide) (by decide)
    (Or.inl (by decide)) (by rfl)

/-! ### Structure of line splitting and joining -/

theorem splitC_ne_nil (sep : Char) : ∀ s : List Char, splitC sep s ≠ [] := by
  intro s
  cases s with
  | nil => simp [splitC]
  | cons c rest =>
    rw [splitC]
    by_cases hc : c = sep
    · rw [if_pos hc]; simp
    · rw [if_neg hc]
      cases splitC sep rest with
      | nil => simp
      | cons l ls => simp

theorem joinNl_splitNl : ∀ s : List Char, joinNl (splitC '\n' s) = s := by
  intro s
  induction s with
  | nil => rfl
  | cons c rest ih =>
    rw [splitC]
    by_cases hc : c = '\n'
    · rw [if_pos hc, hc]
      cases hs : splitC '\n' rest with
      | nil => exact absurd hs (splitC_ne_nil '\n' rest)
      | cons l ls =>
        rw [hs] at ih
        show '\n' :: joinNl (l :: ls) = '\n' :: rest
        rw [ih]
    · rw [if_neg hc]
      cases hs : splitC '\n' rest with
      | nil => exact absurd hs (splitC_ne_nil '\n' rest)
      | cons l ls =>
        rw [hs] at ih
        cases ls with
        | nil =>
          show c :: l = c :: rest
          rw [show joinNl [l] = l from rfl] at ih
          rw [ih]
        | cons l2 ls2 =>
          show (c :: l) ++ '\n' :: joinNl (l2 :: ls2) = c :: rest
          rw [List.cons_append]
          show c :: joinNl (l :: l2 :: ls2) = c :: rest
          rw [ih]

theorem splitC_not_mem : ∀ {sep : Char} {s l : List Char},
    l ∈ splitC sep s → sep ∉ l := by
  intro sep s
  induction s with
  | nil =>
    intro l hl
    rw [splitC] at hl
    simp only [List.mem_singleton] at hl
    subst hl
    exact List.not_mem_nil sep
  | cons c rest ih =>
    intro l hl
    rw [splitC] at hl
    by_cases hc : c = sep
    · rw [if_pos hc] at hl
      rcases List.mem_cons.1 hl with rfl | hl
      · exact List.not_mem_nil sep
      · exact ih hl
    · rw [if_neg hc] at hl
      cases hs : splitC sep rest with
      | nil =>
        rw [hs] at hl
        simp only [List.mem_singleton] at hl
        subst hl
        simp only [List.mem_singleton]
        exact fun he => hc he.symm
      | cons l0 ls =>
        rw [hs] at hl
        rcases List.mem_cons.1 hl with rfl | hl
        · intro hmem
          rcases List.mem_cons.1 hmem with he | hmem
          · exact hc he.symm
          · exact ih (hs ▸ List.mem_cons_self l0 ls) hmem
        · exact ih (hs ▸ List.mem_cons_of_mem l0 hl)

theorem splitNl_joinNl : ∀ ls : List (List Char), ls ≠ [] →
    (∀ l ∈ ls, '\n' ∉ l) → splitC '\n' (joinNl ls) = ls := by
  intro ls
  induction ls with
  | nil => intro h; exact absurd rfl h
  | cons l rest ih =>
    intro hne hnl
    have hl : '\n' ∉ l := hnl l (List.mem_cons_self l rest)
    cases rest with
    | nil =>
      show splitC '\n' l = [l]
      clear hne hnl ih
      induction l with
      | nil => rfl
      | cons c cs ihc =>
        have hc : ¬c = '\n' := fun he => hl (he ▸ List.mem_cons_self c cs)
        have hcs : '\n' ∉ cs := fun hm => hl (List.mem_cons_of_mem c hm)
        rw [splitC, if_neg hc, ihc hcs]
    | cons l2 rest2 =>
      show splitC '\n' (l ++ '\n' :: joinNl (l2 :: rest2)) = l :: l2 :: rest2
      have hrec : splitC '\n' (joinNl (l2 :: rest2)) = l2 :: rest2 :=
        ih (by simp) (fun x hx => hnl x (List.mem_cons_of_mem l hx))
      clear hne hnl ih
      induction l with
      | nil =>
        show splitC '\n' ('\n' :: joinNl (l2 :: rest2)) = [] :: l2 :: rest2
        rw [splitC, if_pos rfl, hrec]
      | cons c cs ihc =>
        have hc : ¬c = '\n' := fun he => hl (he ▸ List.mem_cons_self c cs)
        have hcs : '\n' ∉ cs := fun hm => hl (List.mem_cons_of_mem c hm)
        show splitC '\n' (c :: (cs ++ '\n' :: joinNl (l2 :: rest2))) = (c :: cs) :: l2 :: rest2
        rw [splitC, if_neg hc, ihc hcs]

theorem dropLast_append_getLastD : ∀ (ls : List (List Char)) (d : List Char),
    ls ≠ [] → ls.dropLast ++ [ls.getLastD d] = ls := by
  intro ls
  induction ls with
  | nil => intro d h; exact absurd rfl h
  | cons x rest ih =>
    intro d hne
    cases rest with
    | nil => rfl
    | cons y t =>
      show x :: ((y :: t).dropLast ++ [(x :: y :: t).getLastD d]) = x :: y :: t
      rw [List.getLastD_cons, ih x (by simp)]

/-- Splitting a concatenation: all pieces of the first part except the last,
then the seam piece, then the tail pieces of the second part. -/
theorem splitC_append : ∀ (sep : Char) (p q : List Char),
    splitC sep (p ++ q) =
      (splitC sep p).dropLast ++
        ((splitC sep p).getLastD [] ++ (splitC sep q).headD []) ::
          (splitC sep q).tail := by
  intro sep p q
  induction p with
  | nil =>
    cases hq : splitC sep q with
    | nil => exact absurd hq (splitC_ne_nil sep q)
    | cons l ls =>
      rw [List.nil_append, hq]
      rfl
  | cons c p' ih =>
    by_cases hc : c = sep
    · show splitC sep (c :: (p' ++ q)) = _
      rw [splitC, if_pos hc]
      rw [ih]
      show _ = (splitC sep (c :: p')).dropLast ++ _ :: _
      rw [splitC, if_pos hc]
      cases hp : splitC sep p' with
      | nil => exact absurd hp (splitC_ne_nil sep p')
      | cons z zs =>
        simp [List.getLastD_cons]
    · show splitC sep (c :: (p' ++ q)) = _
      rw [splitC, if_neg hc, ih]
      show _ = (splitC sep (c :: p')).dropLast ++ _ :: _
      rw [splitC, if_neg hc]
      cases hp : splitC sep p' with
      | nil => exact absurd hp (splitC_ne_nil sep p')
      | cons z zs =>
        cases zs with
        | nil => rfl
        | cons z2 zs' =>
          simp [List.getLastD_cons]

/-! ### Occurrences of `SF:` under concatenation -/

/-- Extending past a junction character other than `F` and `:` cannot create
an `SF:` occurrence at the front. -/
theorem startsWith_sf_ext_false {c : Char} {x : List Char} (j : Char)
    (w : List Char) (hj1 : j ≠ 'F') (hj2 : j ≠ ':')
    (h : startsWith sfTag (c :: x) = false) :
    startsWith sfTag (c :: (x ++ j :: w)) = false := by
  by_contra hcon
  rw [Bool.not_eq_false] at hcon
  obtain ⟨t, ht⟩ := sf_shape hcon
  rcases x with _ | ⟨d, _ | ⟨e, x2⟩⟩
  · simp only [List.nil_append] at ht
    injection ht with h1 ht2
    injection ht2 with h2 ht3
    exact hj1 h2
  · simp only [List.cons_append, List.nil_append] at ht
    injection ht with h1 ht2
    injection ht2 with h2 ht3
    injection ht3 with h3 ht4
    exact hj2 h3
  · simp only [List.cons_append] at ht
    injection ht with h1 ht2
    injection ht2 with h2 ht3
    injection ht3 with h3 ht4
    subst h1; subst h2; subst h3
    have htrue : startsWith sfTag ('S' :: 'F' :: ':' :: x2) = true :=
      (startsWith_iff sfTag _).2 ⟨x2, rfl⟩
    rw [htrue] at h
    exact absurd h (by simp)

theorem containsSF_of_startsWith {l : List Char}
    (h : startsWith sfTag l = true) : containsSF l = true := by
  obtain ⟨t, rfl⟩ := sf_shape h
  rw [containsSF, h]
  rfl

theorem containsSF_ext {x : List Char} (y : List Char)
    (h : containsSF x = true) : containsSF (x ++ y) = true := by
  induction x with
  | nil => exact absurd h (by simp [containsSF])
  | cons c rest ih =>
    rw [containsSF] at h
    rw [List.cons_append, containsSF]
    rcases Bool.or_eq_true_iff.1 h with h2 | h2
    · exact Bool.or_eq_true_iff.2 (Or.inl (startsWith_of_ext h2))
    · exact Bool.or_eq_true_iff.2 (Or.inr (ih h2))

theorem isDtorAt_ext {x : List Char} (y : List Char) (h : isDtorAt x = true) :
    isDtorAt (x ++ y) = true := by
  rw [isDtorAt] at h ⊢
  rcases Bool.or_eq_true_iff.1 h with h2 | h2
  · rcases Bool.or_eq_true_iff.1 h2 with h3 | h3
    · exact Bool.or_eq_true_iff.2
        (Or.inl (Bool.or_eq_true_iff.2 (Or.inl (startsWith_of_ext h3))))
    · exact Bool.or_eq_true_iff.2
        (Or.inl (Bool.or_eq_true_iff.2 (Or.inr (startsWith_of_ext h3))))
  · exact Bool.or_eq_true_iff.2 (Or.inr (startsWith_of_ext h2))

theorem containsD_ext {x : List Char} (y : List Char)
    (h : containsD x = true) : containsD (x ++ y) = true := by
  induction x with
  | nil => exact absurd h (by simp [containsD])
  | cons c rest ih =>
    rw [containsD] at h
    rw [List.cons_append, containsD]
    rcases Bool.or_eq_true_iff.1 h with h2 | h2
    · exact Bool.or_eq_true_iff.2 (Or.inl (isDtorAt_ext y h2))
    · exact Bool.or_eq_true_iff.2 (Or.inr (ih h2))

theorem isFnMatch_ext {x : List Char} (y : List Char)
    (h : isFnMatch x = true) : isFnMatch (x ++ y) = true := by
  rw [isFnMatch, Bool.and_eq_true] at h
  rw [isFnMatch, Bool.and_eq_true]
  obtain ⟨h1, h2⟩ := h
  refine ⟨?_, containsD_ext y h2⟩
  rcases Bool.or_eq_true_iff.1 h1 with h3 | h3
  · rcases Bool.or_eq_true_iff.1 h3 with h4 | h4
    · exact Bool.or_eq_true_iff.2
        (Or.inl (Bool.or_eq_true_iff.2 (Or.inl (startsWith_of_ext h4))))
    · exact Bool.or_eq_true_iff.2
        (Or.inl (Bool.or_eq_true_iff.2 (Or.inr (startsWith_of_ext h4))))
  · exact Bool.or_eq_true_iff.2 (Or.inr (startsWith_of_ext h3))

/-- An `SF:`-free piece followed by a newline adds no occurrence: the
occurrences of the concatenation are those of the continuation. -/
theorem containsSF_append_nl {l : List Char} (t : List Char)
    (h : containsSF l = false) :
    containsSF (l ++ '
' :: t) = containsSF t := by
  induction l with
  | nil =>
    show containsSF ('
' :: t) = containsSF t
    rw [containsSF]
    have hsw : startsWith sfTag ('
' :: t) = false := by
      simp [startsWith, sfTag]
    rw [hsw]
    simp
  | cons c rest ih =>
    rw [containsSF, Bool.or_eq_false_iff] at h
    rw [List.cons_append, containsSF,
      startsWith_sf_ext_false '
' t (by decide) (by decide) h.1, ih h.2]
    simp

theorem containsSF_joinNl_false : ∀ {ls : List (List Char)},
    (∀ l ∈ ls, containsSF l = false) → containsSF (joinNl ls) = false := by
  intro ls
  induction ls with
  | nil => intro h; rfl
  | cons l rest ih =>
    intro h
    have hl := h l (List.mem_cons_self l rest)
    cases rest with
    | nil => exact hl
    | cons l2 rest2 =>
      show containsSF (l ++ '\n' :: joinNl (l2 :: rest2)) = false
      rw [containsSF_append_nl _ hl]
      exact ih (fun x hx => h x (List.mem_cons_of_mem l hx))

theorem containsSF_lines_false : ∀ {ls : List (List Char)},
    containsSF (joinNl ls) = false → ∀ l ∈ ls, containsSF l = false := by
  intro ls
  induction ls with
  | nil => intro h l hl; exact absurd hl (List.not_mem_nil l)
  | cons l rest ih =>
    intro h x hx
    cases rest with
    | nil =>
      simp only [List.mem_singleton] at hx
      subst hx
      exact h
    | cons l2 rest2 =>
      have hjoin : containsSF (l ++ '\n' :: joinNl (l2 :: rest2)) = false := h
      have hl : containsSF l = false := by
        by_contra hcon
        rw [Bool.not_eq_false] at hcon
        rw [containsSF_ext ('\n' :: joinNl (l2 :: rest2)) hcon] at hjoin
        exact absurd hjoin (by simp)
      rcases List.mem_cons.1 hx with rfl | hx
      · exact hl
      · rw [containsSF_append_nl _ hl] at hjoin
        exact ih hjoin x hx

/-! ### When the scanner finds no marker -/

theorem takeToNl_none {u : List Char} (h : '\n' ∉ u) : takeToNl u = none := by
  induction u with
  | nil => rfl
  | cons c rest ih =>
    have hc : ¬c = '\n' := fun he => h (he ▸ List.mem_cons_self c rest)
    rw [takeToNl, if_neg hc, ih (fun hm => h (List.mem_cons_of_mem c hm))]
    rfl

theorem takeToNl_append {u : List Char} (v : List Char) (h : '\n' ∉ u) :
    takeToNl (u ++ '\n' :: v) = some (u, v) := by
  induction u with
  | nil => rfl
  | cons c rest ih =>
    have hc : ¬c = '\n' := fun he => h (he ▸ List.mem_cons_self c rest)
    rw [List.cons_append, takeToNl, if_neg hc,
      ih (fun hm => h (List.mem_cons_of_mem c hm))]
    rfl

theorem takeToNl_isSome {u : List Char} (h : '\n' ∈ u) :
    (takeToNl u).isSome = true := by
  induction u with
  | nil => exact absurd h (List.not_mem_nil '\n')
  | cons c rest ih =>
    rw [takeToNl]
    by_cases hc : c = '\n'
    · rw [if_pos hc]; rfl
    · rw [if_neg hc]
      have hrest : '\n' ∈ rest := by
        rcases List.mem_cons.1 h with he | hm
        · exact absurd he.symm hc
        · exact hm
      cases ht : takeToNl rest with
      | none => rw [ht] at ih; exact absurd (ih hrest) (by simp)
      | some p => rfl

theorem findMarker_none_of_noNl {x : List Char} (h : '\n' ∉ x) :
    findMarker x = none := by
  induction x with
  | nil => rfl
  | cons c rest ih =>
    rw [findMarker]
    by_cases hsf : startsWith sfTag (c :: rest) = true
    · rw [if_pos hsf]
      have hdrop : '\n' ∉ rest.drop 2 := by
        intro hm
        exact h (List.mem_cons_of_mem c (List.drop_subset 2 rest hm))
      rw [takeToNl_none hdrop]
    · rw [if_neg hsf, ih (fun hm => h (List.mem_cons_of_mem c hm))]
      rfl

/-- The leftmost match of an `SF:`-free prefix followed by a literal marker
is exactly that marker. -/
theorem findMarker_prepend : ∀ {x : List Char} {inner v : List Char},
    containsSF x = false → '\n' ∉ inner →
    findMarker (x ++ 'S' :: 'F' :: ':' :: (inner ++ '\n' :: v)) =
      some (x, 'S' :: 'F' :: ':' :: (inner ++ ['\n']), v) := by
  intro x
  induction x with
  | nil =>
    intro inner v hx hi
    have hpos : startsWith sfTag ('S' :: 'F' :: ':' :: (inner ++ '\n' :: v)) = true :=
      (startsWith_iff sfTag _).2 ⟨inner ++ '\n' :: v, rfl⟩
    rw [List.nil_append, findMarker, if_pos hpos]
    show (match takeToNl (List.drop 2 ('F' :: ':' :: (inner ++ '\n' :: v))) with
      | some (i, a) => some (([] : List Char), 'S' :: 'F' :: ':' :: (i ++ ['\n']), a)
      | none => none) = _
    rw [show List.drop 2 ('F' :: ':' :: (inner ++ '\n' :: v)) = inner ++ '\n' :: v from rfl]
    rw [takeToNl_append v hi]
  | cons c x' ih =>
    intro inner v hx hi
    rw [containsSF, Bool.or_eq_false_iff] at hx
    rw [List.cons_append, findMarker]
    have hsw : startsWith sfTag
        (c :: (x' ++ 'S' :: 'F' :: ':' :: (inner ++ '\n' :: v))) = false :=
      startsWith_sf_ext_false 'S' _ (by decide) (by decide) hx.1
    rw [if_neg (by simp [hsw]), ih hx.2 hi]
    rfl

/-- A text whose match exists keeps a match when text is prepended. -/
theorem findMarker_isSome_prepend : ∀ (u : List Char) {w : List Char},
    (findMarker w).isSome = true → (findMarker (u ++ w)).isSome = true := by
  intro u
  induction u with
  | nil => intro w h; exact h
  | cons c u' ih =>
    intro w h
    rw [List.cons_append, findMarker]
    by_cases hsf : startsWith sfTag (c :: (u' ++ w)) = true
    · rw [if_pos hsf]
      obtain ⟨t, hshape⟩ := sf_shape hsf
      have hnl : '\n' ∈ w := by
        cases hw : findMarker w with
        | none => rw [hw] at h; exact absurd h (by simp)
        | some q =>
          obtain ⟨p, m, r⟩ := q
          obtain ⟨inner, hs, hmsh, -⟩ := findMarker_sound hw
          rw [hs, hmsh]
          simp
      have hnl2 : '\n' ∈ (u' ++ w).drop 2 := by
        have hmem : '\n' ∈ c :: (u' ++ w) :=
          List.mem_cons_of_mem c (List.mem_append_right u' hnl)
        rw [hshape] at hmem
        have h1 : '\n' ∈ 'F' :: ':' :: t := by
          rcases List.mem_cons.1 hmem with he | hm
          · exact absurd he (by decide)
          · exact hm
        have h2 : '\n' ∈ t := by
          rcases List.mem_cons.1 h1 with he | hm
          · exact absurd he (by decide)
          rcases List.mem_cons.1 hm with he | hm'
          · exact absurd he (by decide)
          · exact hm'
        have hdrop : (u' ++ w).drop 2 = t := by
          have h3 := congrArg (List.drop 3) hshape
          simp only [List.drop_succ_cons, List.drop_zero] at h3
          exact h3
        rw [hdrop]
        exact h2
      cases ht : takeToNl ((u' ++ w).drop 2) with
      | none =>
        have := takeToNl_isSome hnl2
        rw [ht] at this
        exact absurd this (by simp)
      | some q => rfl
    · rw [if_neg hsf]
      cases hf : findMarker (u' ++ w) with
      | none =>
        have := ih h
        rw [hf] at this
        exact absurd this (by simp)
      | some q => rfl

/-- Prepending an `SF:`-free newline-free line and a newline commutes with
the marker search. -/
theorem findMarker_line_prepend {l : List Char} (t : List Char)
    (hnl : '\n' ∉ l) (hsf : containsSF l = false) :
    findMarker (l ++ '\n' :: t) =
      (findMarker t).map (fun x => (l ++ '\n' :: x.1, x.2.1, x.2.2)) := by
  induction l with
  | nil =>
    rw [List.nil_append, findMarker]
    have hsw : startsWith sfTag ('\n' :: t) = false := by
      simp [startsWith, sfTag]
    rw [if_neg (by simp [hsw])]
    rfl
  | cons c rest ih =>
    rw [containsSF, Bool.or_eq_false_iff] at hsf
    have hnl2 : '\n' ∉ rest := fun hm => hnl (List.mem_cons_of_mem c hm)
    rw [List.cons_append, findMarker]
    have hsw : startsWith sfTag (c :: (rest ++ '\n' :: t)) = false :=
      startsWith_sf_ext_false '\n' t (by decide) (by decide) hsf.1
    rw [if_neg (by simp [hsw]), ih hnl2 hsf.2]
    cases findMarker t with
    | none => rfl
    | some q => rfl

/-- No marker in a join of newline-free lines whose non-final lines are
`SF:`-free. -/
theorem findMarker_joinNl_none : ∀ {ls : List (List Char)},
    (∀ l ∈ ls, '\n' ∉ l) → (∀ l ∈ ls.dropLast, containsSF l = false) →
    findMarker (joinNl ls) = none := by
  intro ls
  induction ls with
  | nil => intro h1 h2; rfl
  | cons l rest ih =>
    intro h1 h2
    cases rest with
    | nil =>
      exact findMarker_none_of_noNl (h1 l (List.mem_cons_self l []))
    | cons l2 rest2 =>
      show findMarker (l ++ '\n' :: joinNl (l2 :: rest2)) = none
      rw [findMarker_line_prepend _ (h1 l (List.mem_cons_self l _))
        (h2 l (by simp)),
        ih (fun x hx => h1 x (List.mem_cons_of_mem l hx))
          (fun x hx => h2 x (by
            simp only [List.dropLast_cons₂, List.mem_cons]
            exact Or.inr hx))]
      rfl

/-- A non-final line sits before a newline somewhere in the join. -/
theorem joinNl_dropLast_decomp : ∀ {ls : List (List Char)} {l : List Char},
    l ∈ ls.dropLast → ∃ u v, joinNl ls = u ++ (l ++ '\n' :: v) := by
  intro ls
  induction ls with
  | nil => intro l hl; exact absurd hl (List.not_mem_nil l)
  | cons x rest ih =>
    intro l hl
    cases rest with
    | nil => exact absurd hl (List.not_mem_nil l)
    | cons y t =>
      rw [List.dropLast_cons₂] at hl
      rcases List.mem_cons.1 hl with rfl | hl
      · exact ⟨[], joinNl (y :: t), rfl⟩
      · obtain ⟨u, v, hu⟩ := ih hl
        refine ⟨x ++ '\n' :: u, v, ?_⟩
        show x ++ '\n' :: joinNl (y :: t) = _
        rw [hu]
        simp

/-- If the join of newline-free lines has no marker, all non-final lines are
`SF:`-free. -/
theorem lines_sf_free_of_no_marker : ∀ {ls : List (List Char)},
    findMarker (joinNl ls) = none → (∀ l ∈ ls, '\n' ∉ l) →
    ∀ l ∈ ls.dropLast, containsSF l = false := by
  intro ls hnone hnl l hl
  by_contra hcon
  rw [Bool.not_eq_false] at hcon
  obtain ⟨u, v, hu⟩ := joinNl_dropLast_decomp hl
  have h1 : (findMarker (l ++ '\n' :: v)).isSome = true := by
    have hm : containsSF l = true := hcon
    clear hcon hl hnone hu
    induction l with
    | nil => exact absurd hm (by simp [containsSF])
    | cons c rest ih =>
      rw [containsSF] at hm
      rcases Bool.or_eq_true_iff.1 hm with h2 | h2
      · obtain ⟨w, hw⟩ := sf_shape h2
        rw [List.cons_append, findMarker]
        have hsw : startsWith sfTag (c :: (rest ++ '\n' :: v)) = true := by
          exact startsWith_of_ext h2
        rw [if_pos hsw]
        have hwrest : rest = 'F' :: ':' :: w := by injection hw with hw1 hw2
        have hdrop : (rest ++ '\n' :: v).drop 2 = w ++ '\n' :: v := by
          rw [hwrest]
          rfl
        rw [hdrop]
        have hin : '\n' ∈ w ++ '\n' :: v := List.mem_append_right w (by simp)
        cases ht : takeToNl (w ++ '\n' :: v) with
        | none =>
          have := takeToNl_isSome hin
          rw [ht] at this
          exact absurd this (by simp)
        | some q => rfl
      · rw [List.cons_append, findMarker]
        by_cases hsw : startsWith sfTag (c :: (rest ++ '\n' :: v)) = true
        · rw [if_pos hsw]
          obtain ⟨w, hw⟩ := sf_shape hsw
          have hin : '\n' ∈ w := by
            have hmem : '\n' ∈ c :: (rest ++ '\n' :: v) :=
              List.mem_cons_of_mem c (List.mem_append_right rest (by simp))
            rw [hw] at hmem
            rcases List.mem_cons.1 hmem with he | hmem
            · exact absurd he (by decide)
            rcases List.mem_cons.1 hmem with he | hmem
            · exact absurd he (by decide)
            rcases List.mem_cons.1 hmem with he | hmem
            · exact absurd he (by decide)
            · exact hmem
          have hdrop : (rest ++ '\n' :: v).drop 2 = w := by
            have h3 := congrArg (List.drop 3) hw
            simp only [List.drop_succ_cons, List.drop_zero] at h3
            exact h3
          rw [hdrop]
          cases ht : takeToNl w with
          | none =>
            have := takeToNl_isSome hin
            rw [ht] at this
            exact absurd this (by simp)
          | some q => rfl
        · rw [if_neg hsw]
          have := ih h2
          cases hf : findMarker (rest ++ '\n' :: v) with
          | none => rw [hf] at this; exact absurd this (by simp)
          | some q => rfl
  have h2 : (findMarker (joinNl ls)).isSome = true := by
    rw [hu]
    exact findMarker_isSome_prepend u h1
  rw [hnone] at h2
  exact absurd h2 (by simp)

/-- The pre-piece of a found marker contains no `SF:` occurrence. -/
theorem findMarker_pre_sf_free : ∀ {s p m r : List Char},
    findMarker s = some (p, m, r) → containsSF p = false := by
  intro s
  induction s with
  | nil => intro p m r h; exact absurd h (by simp [findMarker])
  | cons c rest ih =>
    intro p m r h
    rw [findMarker] at h
    by_cases hsf : startsWith sfTag (c :: rest) = true
    · rw [if_pos hsf] at h
      cases htn : takeToNl (rest.drop 2) with
      | none => rw [htn] at h; exact absurd h (by simp)
      | some q =>
        obtain ⟨inner, after⟩ := q
        rw [htn] at h
        simp only [Option.some.injEq, Prod.mk.injEq] at h
        rw [← h.1]
        rfl
    · rw [if_neg hsf] at h
      cases hf : findMarker rest with
      | none => rw [hf] at h; exact absurd h (by simp)
      | some q =>
        obtain ⟨p', m', r'⟩ := q
        rw [hf] at h
        simp only [Option.map_some', Option.some.injEq, Prod.mk.injEq] at h
        obtain ⟨hp, -, -⟩ := h
        have hp' : containsSF p' = false := ih hf
        rw [← hp, containsSF]
        have hpre : startsWith sfTag (c :: p') = false := by
          by_contra hcon
          rw [Bool.not_eq_false] at hcon
          obtain ⟨inner, hs, -, -⟩ := findMarker_sound hf
          have h5 : startsWith sfTag (c :: (p' ++ (m' ++ r'))) = true :=
            startsWith_of_ext hcon
          have h6 : c :: (p' ++ (m' ++ r')) = c :: rest := by
            rw [hs, List.append_assoc]
          rw [h6] at h5
          exact absurd h5 hsf
        rw [hpre, hp']
        rfl

/-- The pre-piece of a found marker does not itself pass the marker test. -/
theorem findMarker_pre_not_sf {s p m r : List Char}
    (h : findMarker s = some (p, m, r)) : startsWith sfTag p = false := by
  by_contra hcon
  rw [Bool.not_eq_false] at hcon
  have h1 : containsSF p = true := containsSF_of_startsWith hcon
  have h2 : containsSF p = false := findMarker_pre_sf_free h
  rw [h1] at h2
  exact absurd h2 (by simp)

/-! ### The per-line effect of a pass with no removals -/

/-- What one pass does to a single line when nothing is removed: summary
lines are rewritten from the current adjustments, everything else is kept. -/
def lineRw (a b : Nat) (l : List Char) : List Char :=
  if startsWith fnfTag l = true then
    match pyInt (colon1 l) with
    | some n => fnfTag ++ intToChars (n - (a : Int))
    | none => l
  else if startsWith fnhTag l = true then
    match pyInt (colon1 l) with
    | some n => fnhTag ++ intToChars (n - (b : Int))
    | none => l
  else l

/-- A summary line already in canonical form: the prefix followed by the
decimal rendering of the parsed value. -/
def canonLine (l : List Char) : Prop :=
  (startsWith fnfTag l = true →
    ∃ n : Int, pyInt (colon1 l) = some n ∧ l = fnfTag ++ intToChars n) ∧
  (startsWith fnhTag l = true →
    ∃ n : Int, pyInt (colon1 l) = some n ∧ l = fnhTag ++ intToChars n)

theorem splitC_all_ne {sep : Char} : ∀ {u : List Char},
    (∀ c ∈ u, ¬c = sep) → splitC sep u = [u] := by
  intro u
  induction u with
  | nil => intro h; rfl
  | cons c rest ih =>
    intro h
    rw [splitC, if_neg (h c (List.mem_cons_self c rest)),
      ih (fun x hx => h x (List.mem_cons_of_mem c hx))]

theorem splitC_prepend_free {sep : Char} : ∀ {x : List Char} (u : List Char),
    (∀ c ∈ x, ¬c = sep) → splitC sep (x ++ sep :: u) = x :: splitC sep u := by
  intro x
  induction x with
  | nil => intro u h; rw [List.nil_append, splitC, if_pos rfl]
  | cons c rest ih =>
    intro u h
    rw [List.cons_append, splitC, if_neg (h c (List.mem_cons_self c rest)),
      ih u (fun y hy => h y (List.mem_cons_of_mem c hy))]

theorem colon1_fnf (u : List Char) (h : ∀ c ∈ u, c ≠ ':') :
    colon1 (fnfTag ++ u) = u := by
  rw [colon1]
  have hsp : splitC ':' (fnfTag ++ u) = ['F', 'N', 'F'] :: splitC ':' u := by
    have : fnfTag ++ u = ['F', 'N', 'F'] ++ ':' :: u := rfl
    rw [this, splitC_prepend_free u (by decide)]
  rw [hsp, splitC_all_ne h]
  rfl

theorem colon1_fnh (u : List Char) (h : ∀ c ∈ u, c ≠ ':') :
    colon1 (fnhTag ++ u) = u := by
  rw [colon1]
  have hsp : splitC ':' (fnhTag ++ u) = ['F', 'N', 'H'] :: splitC ':' u := by
    have : fnhTag ++ u = ['F', 'N', 'H'] ++ ':' :: u := rfl
    rw [this, splitC_prepend_free u (by decide)]
  rw [hsp, splitC_all_ne h]
  rfl

theorem fnh_ne_fnf (u : List Char) : startsWith fnfTag (fnhTag ++ u) = false := by
  simp [startsWith, fnfTag, fnhTag]

theorem fnf_ne_fnh (u : List Char) : startsWith fnhTag (fnfTag ++ u) = false := by
  simp [startsWith, fnfTag, fnhTag]

theorem containsSF_false_of_noS : ∀ {x : List Char},
    (∀ c ∈ x, ¬c = 'S') → containsSF x = false := by
  intro x
  induction x with
  | nil => intro h; rfl
  | cons c rest ih =>
    intro h
    rw [containsSF]
    have hsw : startsWith sfTag (c :: rest) = false := by
      by_contra hcon
      rw [Bool.not_eq_false] at hcon
      obtain ⟨t, ht⟩ := sf_shape hcon
      injection ht with h1 h2
      exact h c (List.mem_cons_self c rest) h1
    rw [hsw, ih (fun y hy => h y (List.mem_cons_of_mem c hy))]
    rfl

/-- The canonical `FNF:` rewrite is itself canonical, harmless, and free of
newline, `SF:`, and whitespace issues. -/
theorem fnf_canon_props (v : Int) :
    isFnMatch (fnfTag ++ intToChars v) = false ∧
    '\n' ∉ fnfTag ++ intToChars v ∧
    canonLine (fnfTag ++ intToChars v) ∧
    containsSF (fnfTag ++ intToChars v) = false ∧
    hasNonWS (fnfTag ++ intToChars v) = true ∧
    startsWith sfTag (fnfTag ++ intToChars v) = false := by
  refine ⟨fnf_not_match (startsWith_append _ _), ?_, ?_, ?_, ?_, ?_⟩
  · intro hmem
    rcases List.mem_append.1 hmem with hm | hm
    · exact absurd hm (by decide)
    · exact (intToChars_chars v '\n' hm).2.1 rfl
  · constructor
    · intro hsw
      refine ⟨v, ?_, rfl⟩
      rw [colon1_fnf _ (fun c hc => (intToChars_chars v c hc).2.2.1),
        pyInt_intToChars]
    · intro hsw
      rw [fnf_ne_fnh] at hsw
      exact absurd hsw (by simp)
  · refine containsSF_false_of_noS (fun c hc => ?_)
    rcases List.mem_append.1 hc with hm | hm
    · intro he; subst he; exact absurd hm (by decide)
    · exact fun he => (intToChars_chars v c hm).2.2.2 he
  · rw [hasNonWS, List.any_eq_true]
    exact ⟨'F', List.mem_append_left _ (by decide), by decide⟩
  · simp [startsWith, sfTag, fnfTag]

/-- The canonical `FNH:` rewrite, with the same properties. -/
theorem fnh_canon_props (v : Int) :
    isFnMatch (fnhTag ++ intToChars v) = false ∧
    '\n' ∉ fnhTag ++ intToChars v ∧
    canonLine (fnhTag ++ intToChars v) ∧
    containsSF (fnhTag ++ intToChars v) = false ∧
    hasNonWS (fnhTag ++ intToChars v) = true ∧
    startsWith sfTag (fnhTag ++ intToChars v) = false := by
  refine ⟨fnh_not_match (startsWith_append _ _), ?_, ?_, ?_, ?_, ?_⟩
  · intro hmem
    rcases List.mem_append.1 hmem with hm | hm
    · exact absurd hm (by decide)
    · exact (intToChars_chars v '\n' hm).2.1 rfl
  · constructor
    · intro hsw
      rw [fnh_ne_fnf] at hsw
      exact absurd hsw (by simp)
    · intro hsw
      refine ⟨v, ?_, rfl⟩
      rw [colon1_fnh _ (fun c hc => (intToChars_chars v c hc).2.2.1),
        pyInt_intToChars]
  · refine containsSF_false_of_noS (fun c hc => ?_)
    rcases List.mem_append.1 hc with hm | hm
    · intro he; subst he; exact absurd hm (by decide)
    · exact fun he => (intToChars_chars v c hm).2.2.2 he
  · rw [hasNonWS, List.any_eq_true]
    exact ⟨'F', List.mem_append_left _ (by decide), by decide⟩
  · simp [startsWith, sfTag, fnhTag]

/-- Properties of the image of one line under the no-removal pass. -/
theorem lineRw_props {l : List Char} (a b : Nat)
    (hm : isFnMatch l = false)
    (hok : (startsWith fnfTag l = true ∨ startsWith fnhTag l = true) →
      (pyInt (colon1 l)).isSome = true)
    (hnl : '\n' ∉ l) :
    isFnMatch (lineRw a b l) = false ∧ '\n' ∉ lineRw a b l ∧
    canonLine (lineRw a b l) ∧
    (containsSF l = false → containsSF (lineRw a b l) = false) ∧
    (hasNonWS l = true → hasNonWS (lineRw a b l) = true) ∧
    (startsWith sfTag l = false → startsWith sfTag (lineRw a b l) = false) := by
  by_cases hf : startsWith fnfTag l = true
  · cases hv : pyInt (colon1 l) with
    | none =>
      have := hok (Or.inl hf)
      rw [hv] at this
      exact absurd this (by simp)
    | some n =>
      have hrw : lineRw a b l = fnfTag ++ intToChars (n - (a : Int)) := by
        rw [lineRw, if_pos hf, hv]
      rw [hrw]
      obtain ⟨p1, p2, p3, p4, p5, p6⟩ := fnf_canon_props (n - (a : Int))
      exact ⟨p1, p2, p3, fun _ => p4, fun _ => p5, fun _ => p6⟩
  · by_cases hh : startsWith fnhTag l = true
    · cases hv : pyInt (colon1 l) with
      | none =>
        have := hok (Or.inr hh)
        rw [hv] at this
        exact absurd this (by simp)
      | some n =>
        have hrw : lineRw a b l = fnhTag ++ intToChars (n - (b : Int)) := by
          rw [lineRw, if_neg hf, if_pos hh, hv]
        rw [hrw]
        obtain ⟨p1, p2, p3, p4, p5, p6⟩ := fnh_canon_props (n - (b : Int))
        exact ⟨p1, p2, p3, fun _ => p4, fun _ => p5, fun _ => p6⟩
    · have hrw : lineRw a b l = l := by
        rw [lineRw, if_neg hf, if_neg hh]
      rw [hrw]
      refine ⟨hm, hnl, ⟨?_, ?_⟩, fun h => h, fun h => h, fun h => h⟩
      · intro hsw; exact absurd hsw hf
      · intro hsw; exact absurd hsw hh

/-- A pass over match-free lines keeps the counters and maps each line
through `lineRw`; every summary line parsed successfully. -/
theorem processLines_nomatch : ∀ {ls : List (List Char)} {a b : Nat}
    {o : List (List Char)} {a' b' : Nat},
    (∀ l ∈ ls, isFnMatch l = false) →
    processLines ls a b = .ok (o, a', b') →
    o = ls.map (lineRw a b) ∧ a' = a ∧ b' = b ∧
    (∀ l ∈ ls, (startsWith fnfTag l = true ∨ startsWith fnhTag l = true) →
      (pyInt (colon1 l)).isSome = true) := by
  intro ls
  induction ls with
  | nil =>
    intro a b o a' b' hm h
    rw [processLines_nil] at h
    simp only [Except.ok.injEq, Prod.mk.injEq] at h
    refine ⟨h.1.symm, h.2.1.symm, h.2.2.symm, ?_⟩
    intro l hl
    exact absurd hl (List.not_mem_nil l)
  | cons l rest ih =>
    intro a b o a' b' hm h
    have hml : isFnMatch l = false := hm l (List.mem_cons_self l rest)
    have hmr : ∀ x ∈ rest, isFnMatch x = false :=
      fun x hx => hm x (List.mem_cons_of_mem l hx)
    by_cases hf : startsWith fnfTag l = true
    · cases hv : pyInt (colon1 l) with
      | none =>
        rw [processLines_cons_fnf_err rest a b hf hv] at h
        exact absurd h (by simp)
      | some n =>
        rw [processLines_cons_fnf rest a b hf hv] at h
        cases hr : processLines rest a b with
        | error e => rw [hr] at h; exact absurd h (by simp [Except.map])
        | ok r =>
          obtain ⟨o₂, a₂, b₂⟩ := r
          rw [hr] at h
          simp only [Except.map, Except.ok.injEq, Prod.mk.injEq] at h
          obtain ⟨ho, ha, hb⟩ := h
          obtain ⟨ho₂, ha₂, hb₂, hok⟩ := ih hmr hr
          refine ⟨?_, ha ▸ ha₂, hb ▸ hb₂, ?_⟩
          · rw [← ho, List.map_cons, ho₂]
            congr 1
            rw [lineRw, if_pos hf, hv]
          · intro x hx hsum
            rcases List.mem_cons.1 hx with rfl | hx
            · rw [hv]; rfl
            · exact hok x hx hsum
    · by_cases hh : startsWith fnhTag l = true
      · cases hv : pyInt (colon1 l) with
        | none =>
          rw [processLines_cons_fnh_err rest a b hh hv] at h
          exact absurd h (by simp)
        | some n =>
          rw [processLines_cons_fnh rest a b hh hv] at h
          cases hr : processLines rest a b with
          | error e => rw [hr] at h; exact absurd h (by simp [Except.map])
          | ok r =>
            obtain ⟨o₂, a₂, b₂⟩ := r
            rw [hr] at h
            simp only [Except.map, Except.ok.injEq, Prod.mk.injEq] at h
            obtain ⟨ho, ha, hb⟩ := h
            obtain ⟨ho₂, ha₂, hb₂, hok⟩ := ih hmr hr
            refine ⟨?_, ha ▸ ha₂, hb ▸ hb₂, ?_⟩
            · rw [← ho, List.map_cons, ho₂]
              congr 1
              rw [lineRw, if_neg hf, if_pos hh, hv]
            · intro x hx hsum
              rcases List.mem_cons.1 hx with rfl | hx
              · rw [hv]; rfl
              · exact hok x hx hsum
      · simp only [Bool.not_eq_true] at hf hh
        rw [processLines_cons_other rest a b hml hf hh] at h
        cases hr : processLines rest a b with
        | error e => rw [hr] at h; exact absurd h (by simp [Except.map])
        | ok r =>
          obtain ⟨o₂, a₂, b₂⟩ := r
          rw [hr] at h
          simp only [Except.map, Except.ok.injEq, Prod.mk.injEq] at h
          obtain ⟨ho, ha, hb⟩ := h
          obtain ⟨ho₂, ha₂, hb₂, hok⟩ := ih hmr hr
          refine ⟨?_, ha ▸ ha₂, hb ▸ hb₂, ?_⟩
          · rw [← ho, List.map_cons, ho₂]
            congr 1
            rw [lineRw, if_neg (by simp [hf]), if_neg (by simp [hh])]
          · intro x hx hsum
            rcases List.mem_cons.1 hx with rfl | hx
            · rcases hsum with hs | hs
              · rw [hs] at hf; exact absurd hf (by simp)
              · rw [hs] at hh; exact absurd hh (by simp)
            · exact hok x hx hsum

/-- Canonical match-free lines are a fixed point of the pass. -/
theorem processLines_canon : ∀ {ls : List (List Char)},
    (∀ l ∈ ls, isFnMatch l = false) → (∀ l ∈ ls, canonLine l) →
    processLines ls 0 0 = .ok (ls, 0, 0) := by
  intro ls
  induction ls with
  | nil => intro h1 h2; rfl
  | cons l rest ih =>
    intro h1 h2
    have hml : isFnMatch l = false := h1 l (List.mem_cons_self l rest)
    have hrec : processLines rest 0 0 = .ok (rest, 0, 0) :=
      ih (fun x hx => h1 x (List.mem_cons_of_mem l hx))
        (fun x hx => h2 x (List.mem_cons_of_mem l hx))
    by_cases hf : startsWith fnfTag l = true
    · obtain ⟨n, hpy, hform⟩ := (h2 l (List.mem_cons_self l rest)).1 hf
      rw [processLines_cons_fnf rest 0 0 hf hpy, hrec]
      simp only [Except.map]
      have hz : n - ((0 : Nat) : Int) = n := by omega
      rw [hz, ← hform]
    · by_cases hh : startsWith fnhTag l = true
      · obtain ⟨n, hpy, hform⟩ := (h2 l (List.mem_cons_self l rest)).2 hh
        rw [processLines_cons_fnh rest 0 0 hh hpy, hrec]
        simp only [Except.map]
        have hz : n - ((0 : Nat) : Int) = n := by omega
        rw [hz, ← hform]
      · simp only [Bool.not_eq_true] at hf hh
        rw [processLines_cons_other rest 0 0 hml hf hh, hrec]
        rfl

/-- The join of lines has a non-whitespace character iff some line does. -/
theorem hasNonWS_joinNl : ∀ ls : List (List Char),
    hasNonWS (joinNl ls) = ls.any (fun l => hasNonWS l) := by
  intro ls
  induction ls with
  | nil => rfl
  | cons l rest ih =>
    cases rest with
    | nil => simp [joinNl, hasNonWS]
    | cons l2 t =>
      show hasNonWS (l ++ '\n' :: joinNl (l2 :: t)) = _
      rw [hasNonWS, List.any_append, List.any_cons]
      have hnl : (!isPyWS '\n') = false := by decide
      rw [hnl]
      show (l.any (fun c => !isPyWS c) ||
        (false || hasNonWS (joinNl (l2 :: t)))) = _
      rw [Bool.false_or, ih]
      rfl

/-- The join starts with `SF:` only if its first line does. -/
theorem startsWith_sf_joinNl {l : List Char} {rest : List (List Char)}
    (h : startsWith sfTag (joinNl (l :: rest)) = true) :
    startsWith sfTag l = true := by
  cases rest with
  | nil => exact h
  | cons l2 t =>
    cases l with
    | nil =>
      have : startsWith sfTag ('\n' :: joinNl (l2 :: t)) = true := h
      rw [show startsWith sfTag ('\n' :: joinNl (l2 :: t)) = false by
        simp [startsWith, sfTag]] at this
      exact absurd this (by simp)
    | cons c cs =>
      by_contra hcon
      rw [Bool.not_eq_true] at hcon
      have hfalse := startsWith_sf_ext_false '\n' (joinNl (l2 :: t))
        (by decide) (by decide) hcon
      have : startsWith sfTag ((c :: cs) ++ '\n' :: joinNl (l2 :: t)) = true := h
      rw [show (c :: cs) ++ '\n' :: joinNl (l2 :: t) =
        c :: (cs ++ '\n' :: joinNl (l2 :: t)) from rfl] at this
      rw [hfalse] at this
      exact absurd this (by simp)

/-- Filtering a match-free section removes nothing, and its output section is
a fixed point of the filtering pass that inherits the relevant structure. -/
theorem processed_section_fixed {seg txt : List Char} {c : Nat}
    (hnm : ∀ l ∈ splitC '\n' seg, isFnMatch l = false)
    (hps : processSection seg = .ok (txt, c)) :
    c = 0 ∧ processSection txt = .ok (txt, 0) ∧
    (hasNonWS seg = true → hasNonWS txt = true) ∧
    (startsWith sfTag seg = false → startsWith sfTag txt = false) ∧
    (containsSF seg = false → containsSF txt = false) ∧
    (findMarker seg = none → findMarker txt = none) := by
  rw [processSection] at hps
  cases hpl : processLines (splitC '\n' seg) 0 0 with
  | error e => rw [hpl] at hps; exact absurd hps (by simp [Except.map])
  | ok r =>
    obtain ⟨ls', a, b'⟩ := r
    rw [hpl] at hps
    simp only [Except.map, Except.ok.injEq, Prod.mk.injEq] at hps
    obtain ⟨htxt, hc⟩ := hps
    obtain ⟨hmap, ha, hb, hok⟩ := processLines_nomatch hnm hpl
    have hlnn : splitC '\n' seg ≠ [] := splitC_ne_nil '\n' seg
    have hlnl : ∀ l ∈ splitC '\n' seg, '\n' ∉ l := fun l hl => splitC_not_mem hl
    have hjoin : joinNl (splitC '\n' seg) = seg := joinNl_splitNl seg
    have hprops : ∀ l ∈ splitC '\n' seg,
        isFnMatch (lineRw 0 0 l) = false ∧ '\n' ∉ lineRw 0 0 l ∧
        canonLine (lineRw 0 0 l) ∧
        (containsSF l = false → containsSF (lineRw 0 0 l) = false) ∧
        (hasNonWS l = true → hasNonWS (lineRw 0 0 l) = true) ∧
        (startsWith sfTag l = false →
          startsWith sfTag (lineRw 0 0 l) = false) :=
      fun l hl => lineRw_props 0 0 (hnm l hl) (hok l hl) (hlnl l hl)
    have hn2 : ls' ≠ [] := by rw [hmap]; simp [hlnn]
    have hnl' : ∀ l' ∈ ls', '\n' ∉ l' := by
      rw [hmap]
      intro l' hl'
      obtain ⟨l, hl, rfl⟩ := List.mem_map.1 hl'
      exact (hprops l hl).2.1
    have hnm' : ∀ l' ∈ ls', isFnMatch l' = false := by
      rw [hmap]
      intro l' hl'
      obtain ⟨l, hl, rfl⟩ := List.mem_map.1 hl'
      exact (hprops l hl).1
    have hcan' : ∀ l' ∈ ls', canonLine l' := by
      rw [hmap]
      intro l' hl'
      obtain ⟨l, hl, rfl⟩ := List.mem_map.1 hl'
      exact (hprops l hl).2.2.1
    have hsplit' : splitC '\n' txt = ls' := by
      rw [← htxt]
      exact splitNl_joinNl ls' hn2 hnl'
    have hc0 : c = 0 := by omega
    refine ⟨hc0, ?_, ?_, ?_, ?_, ?_⟩
    · rw [processSection, hsplit', processLines_canon hnm' hcan']
      simp only [Except.map]
      rw [htxt]
    · intro hws
      rw [← hjoin, hasNonWS_joinNl] at hws
      obtain ⟨l, hl, hwl⟩ := List.any_eq_true.1 hws
      have himg : hasNonWS (lineRw 0 0 l) = true := (hprops l hl).2.2.2.2.1 hwl
      rw [← htxt, hasNonWS_joinNl]
      refine List.any_eq_true.2 ⟨lineRw 0 0 l, ?_, himg⟩
      rw [hmap]
      exact List.mem_map_of_mem _ hl
    · intro hsf
      cases hle : splitC '\n' seg with
      | nil => exact absurd hle hlnn
      | cons h0 t0 =>
        have hh0 : startsWith sfTag h0 = false := by
          by_contra hcon
          rw [Bool.not_eq_false] at hcon
          have hsw : startsWith sfTag seg = true := by
            rw [← hjoin, hle]
            cases t0 with
            | nil => exact hcon
            | cons x tt =>
              show startsWith sfTag (h0 ++ '\n' :: joinNl (x :: tt)) = true
              exact startsWith_of_ext hcon
          rw [hsw] at hsf
          exact absurd hsf (by simp)
        have himg : startsWith sfTag (lineRw 0 0 h0) = false :=
          (hprops h0 (hle ▸ List.mem_cons_self h0 t0)).2.2.2.2.2 hh0
        by_contra hcon
        rw [Bool.not_eq_false] at hcon
        have hhead : startsWith sfTag (lineRw 0 0 h0) = true := by
          apply @startsWith_sf_joinNl (lineRw 0 0 h0) (t0.map (lineRw 0 0))
          rw [← List.map_cons, ← hle, ← hmap, htxt]
          exact hcon
        rw [hhead] at himg
        exact absurd himg (by simp)
    · intro hcs
      have hlines : ∀ l ∈ splitC '\n' seg, containsSF l = false := by
        apply containsSF_lines_false
        rw [hjoin]
        exact hcs
      rw [← htxt]
      apply containsSF_joinNl_false
      rw [hmap]
      intro l' hl'
      obtain ⟨l, hl, rfl⟩ := List.mem_map.1 hl'
      exact (hprops l hl).2.2.2.1 (hlines l hl)
    · intro hfm
      have hdl : ∀ l ∈ (splitC '\n' seg).dropLast, containsSF l = false := by
        apply lines_sf_free_of_no_marker
        · rw [hjoin]; exact hfm
        · exact hlnl
      have hdl' : ∀ l' ∈ ls'.dropLast, containsSF l' = false := by
        rw [hmap, ← List.map_dropLast]
        intro l' hl'
        obtain ⟨l, hl, rfl⟩ := List.mem_map.1 hl'
        exact (hprops l (List.dropLast_subset _ hl)).2.2.2.1 (hdl l hl)
      rw [← htxt]
      exact findMarker_joinNl_none hnl' hdl'

/-! ### Step lemmas for `processSegments` and the idempotence induction -/

theorem processSegments_nil : processSegments [] = .ok ([], 0) := rfl

theorem processSegments_cons_sf {seg : List Char} (rest : List (List Char))
    (h : startsWith sfTag seg = true) :
    processSegments (seg :: rest) =
      (processSegments rest).map (fun r => (seg ++ r.1, r.2)) := by
  rw [processSegments, if_pos h]

theorem processSegments_cons_content {seg txt : List Char} {c : Nat}
    (rest : List (List Char)) (h1 : startsWith sfTag seg = false)
    (h2 : hasNonWS seg = true) (h3 : processSection seg = .ok (txt, c)) :
    processSegments (seg :: rest) =
      (processSegments rest).map (fun r => (txt ++ r.1, c + r.2)) := by
  rw [processSegments, if_neg (by simp [h1]), if_pos h2, h3]

theorem processSegments_cons_ws {seg : List Char} (rest : List (List Char))
    (h1 : startsWith sfTag seg = false) (h2 : hasNonWS seg = false) :
    processSegments (seg :: rest) = processSegments rest := by
  rw [processSegments, if_neg (by simp [h1]), if_neg (by simp [h2])]

/-- Idempotence of the whole transformation on match-free input, by strong
induction on the length of the text: the removal total is zero and the output
is a fixed point of `filter_lcov`. -/
theorem filter_idem_aux : ∀ (k : Nat) (content : List Char),
    content.length ≤ k →
    (∀ l ∈ splitC '\n' content, isFnMatch l = false) →
    ∀ (out : List Char) (t : Nat), filter_lcov content = .ok (out, t) →
    t = 0 ∧ filter_lcov out = .ok (out, 0) := by
  intro k
  induction k with
  | zero =>
    intro content hk hnm out t hps
    rcases content with _ | ⟨c, cs⟩
    · rw [show filter_lcov [] = Except.ok (([] : List Char), 0) from rfl] at hps
      simp only [Except.ok.injEq, Prod.mk.injEq] at hps
      obtain ⟨ho, ht⟩ := hps
      subst ho
      subst ht
      exact ⟨rfl, rfl⟩
    · exact absurd hk (by simp)
  | succ k ih =>
    intro content hk hnm out t hps
    cases hm : findMarker content with
    | none =>
      have hsplit : splitSF content = [content] := by rw [splitSF_eq, hm]
      rw [filter_lcov, hsplit] at hps
      by_cases h1 : startsWith sfTag content = true
      · rw [processSegments_cons_sf [] h1, processSegments_nil] at hps
        simp only [Except.map, Except.ok.injEq, Prod.mk.injEq,
          List.append_nil] at hps
        obtain ⟨ho, ht⟩ := hps
        subst ho
        refine ⟨ht.symm, ?_⟩
        rw [filter_lcov, hsplit, processSegments_cons_sf [] h1,
          processSegments_nil]
        simp [Except.map]
      · have h1' : startsWith sfTag content = false := Bool.eq_false_iff.2 h1
        by_cases h2 : hasNonWS content = true
        · cases hsec : processSection content with
          | error e =>
            rw [processSegments, if_neg h1, if_pos h2, hsec] at hps
            exact Except.noConfusion hps
          | ok pr =>
            obtain ⟨txt, c⟩ := pr
            rw [processSegments_cons_content [] h1' h2 hsec,
              processSegments_nil] at hps
            simp only [Except.map, Except.ok.injEq, Prod.mk.injEq,
              List.append_nil, Nat.add_zero] at hps
            obtain ⟨ho, ht⟩ := hps
            subst ho
            obtain ⟨hc0, hfix, hws, hsf, hcs, hfm⟩ :=
              processed_section_fixed hnm hsec
            refine ⟨by omega, ?_⟩
            have hsplit2 : splitSF txt = [txt] := by
              rw [splitSF_eq, hfm hm]
            rw [filter_lcov, hsplit2,
              processSegments_cons_content [] (hsf h1') (hws h2) hfix,
              processSegments_nil]
            simp [Except.map]
        · have h2' : hasNonWS content = false := Bool.eq_false_iff.2 h2
          rw [processSegments_cons_ws [] h1' h2', processSegments_nil] at hps
          simp only [Except.ok.injEq, Prod.mk.injEq] at hps
          obtain ⟨ho, ht⟩ := hps
          subst ho
          subst ht
          exact ⟨rfl, rfl⟩
    | some trip =>
      obtain ⟨p, m, r⟩ := trip
      obtain ⟨inner, hcon, hmsh, hinn⟩ := findMarker_sound hm
      have hlen := findMarker_rest_len hm
      have h1 : startsWith sfTag p = false := findMarker_pre_not_sf hm
      have hpsf : containsSF p = false := findMarker_pre_sf_free hm
      have hsplit : splitSF content = p :: m :: splitSF r := by
        rw [splitSF_eq, hm]
      have hcon2 : content = p ++ (m ++ r) := by
        rw [hcon, List.append_assoc]
      have hmr : m ++ r = ('S' :: 'F' :: ':' :: inner) ++ '\n' :: r := by
        rw [hmsh]
        simp
      have hnoNl : ∀ c ∈ ('S' :: 'F' :: ':' :: inner), ¬c = '\n' := by
        intro c hc
        simp only [List.mem_cons] at hc
        rcases hc with rfl | rfl | rfl | hc
        · decide
        · decide
        · decide
        · exact fun h => hinn (h ▸ hc)
      have hsplit_mr : splitC '\n' (m ++ r) =
          ('S' :: 'F' :: ':' :: inner) :: splitC '\n' r := by
        rw [hmr]
        exact splitC_prepend_free r hnoNl
      have hlines : splitC '\n' content =
          (splitC '\n' p).dropLast ++
            ((splitC '\n' p).getLastD [] ++ ('S' :: 'F' :: ':' :: inner)) ::
              splitC '\n' r := by
        rw [hcon2, splitC_append, hsplit_mr]
        rfl
      have hnm_r : ∀ l ∈ splitC '\n' r, isFnMatch l = false := by
        intro l hl
        apply hnm
        rw [hlines]
        exact List.mem_append_right _ (List.mem_cons_of_mem _ hl)
      have hseam : isFnMatch
          ((splitC '\n' p).getLastD [] ++ ('S' :: 'F' :: ':' :: inner)) =
            false := by
        apply hnm
        rw [hlines]
        exact List.mem_append_right _ (List.mem_cons_self _ _)
      have hlastp : isFnMatch ((splitC '\n' p).getLastD []) = false := by
        by_contra hcon3
        rw [Bool.not_eq_false] at hcon3
        rw [isFnMatch_ext _ hcon3] at hseam
        exact absurd hseam (by simp)
      have hnm_p : ∀ l ∈ splitC '\n' p, isFnMatch l = false := by
        intro l hl
        have hdecomp : splitC '\n' p =
            (splitC '\n' p).dropLast ++ [(splitC '\n' p).getLastD []] :=
          (dropLast_append_getLastD _ [] (splitC_ne_nil '\n' p)).symm
        rw [hdecomp] at hl
        rcases List.mem_append.1 hl with hl | hl
        · apply hnm
          rw [hlines]
          exact List.mem_append_left _ hl
        · rw [List.mem_singleton] at hl
          subst hl
          exact hlastp
      have hkr : r.length ≤ k := by
        have hck : content.length ≤ k + 1 := hk
        omega
      have hmsf : startsWith sfTag m = true := by
        rw [hmsh]
        exact (startsWith_iff sfTag _).2 ⟨inner ++ ['\n'], rfl⟩
      rw [filter_lcov, hsplit] at hps
      by_cases h2 : hasNonWS p = true
      · cases hsec : processSection p with
        | error e =>
          rw [processSegments, if_neg (by simp [h1]), if_pos h2, hsec] at hps
          exact Except.noConfusion hps
        | ok pr =>
          obtain ⟨txtp, cp⟩ := pr
          rw [processSegments_cons_content _ h1 h2 hsec,
            processSegments_cons_sf _ hmsf] at hps
          cases hfr : processSegments (splitSF r) with
          | error e =>
            rw [hfr] at hps
            simp only [Except.map] at hps
            exact Except.noConfusion hps
          | ok rr =>
            obtain ⟨out_r, t_r⟩ := rr
            rw [hfr] at hps
            simp only [Except.map, Except.ok.injEq, Prod.mk.injEq] at hps
            obtain ⟨ho, ht⟩ := hps
            obtain ⟨htr0, hfout_r⟩ :=
              ih r hkr hnm_r out_r t_r (by rw [filter_lcov]; exact hfr)
            obtain ⟨hc0, hfix, hws, hsf, hcs, hfm2⟩ :=
              processed_section_fixed hnm_p hsec
            refine ⟨by omega, ?_⟩
            have hcsp : containsSF txtp = false := hcs hpsf
            have hout : out = txtp ++ ('S' :: 'F' :: ':' ::
                (inner ++ '\n' :: out_r)) := by
              rw [← ho, hmsh]
              simp
            have hfm_out : findMarker out =
                some (txtp, 'S' :: 'F' :: ':' :: (inner ++ ['\n']), out_r) := by
              rw [hout]
              exact findMarker_prepend hcsp hinn
            have hsplit_out : splitSF out =
                txtp :: ('S' :: 'F' :: ':' :: (inner ++ ['\n'])) ::
                  splitSF out_r := by
              rw [splitSF_eq, hfm_out]
            have hmsf2 : startsWith sfTag
                ('S' :: 'F' :: ':' :: (inner ++ ['\n'])) = true :=
              (startsWith_iff sfTag _).2 ⟨inner ++ ['\n'], rfl⟩
            rw [filter_lcov, hsplit_out,
              processSegments_cons_content _ (hsf h1) (hws h2) hfix,
              processSegments_cons_sf _ hmsf2]
            rw [filter_lcov] at hfout_r
            rw [hfout_r]
            simp only [Except.map]
            rw [hout]
            simp
      · have h2' : hasNonWS p = false := Bool.eq_false_iff.2 h2
        rw [processSegments_cons_ws _ h1 h2',
          processSegments_cons_sf _ hmsf] at hps
        cases hfr : processSegments (splitSF r) with
        | error e =>
          rw [hfr] at hps
          simp only [Except.map] at hps
          exact Except.noConfusion hps
        | ok rr =>
          obtain ⟨out_r, t_r⟩ := rr
          rw [hfr] at hps
          simp only [Except.map, Except.ok.injEq, Prod.mk.injEq] at hps
          obtain ⟨ho, ht⟩ := hps
          obtain ⟨htr0, hfout_r⟩ :=
            ih r hkr hnm_r out_r t_r (by rw [filter_lcov]; exact hfr)
          refine ⟨by omega, ?_⟩
          have hout : out = 'S' :: 'F' :: ':' :: (inner ++ '\n' :: out_r) := by
            rw [← ho, hmsh]
            simp
          have hfm_out : findMarker out =
              some ([], 'S' :: 'F' :: ':' :: (inner ++ ['\n']), out_r) := by
            rw [hout]
            exact @findMarker_prepend [] inner out_r (by decide) hinn
          have hsplit_out : splitSF out =
              [] :: ('S' :: 'F' :: ':' :: (inner ++ ['\n'])) ::
                splitSF out_r := by
            rw [splitSF_eq, hfm_out]
          have hmsf2 : startsWith sfTag
              ('S' :: 'F' :: ':' :: (inner ++ ['\n'])) = true :=
            (startsWith_iff sfTag _).2 ⟨inner ++ ['\n'], rfl⟩
          rw [filter_lcov, hsplit_out,
            processSegments_cons_ws _ (by decide) (by decide),
            processSegments_cons_sf _ hmsf2]
          rw [filter_lcov] at hfout_r
          rw [hfout_r]
          simp only [Except.map]
          rw [hout]
          simp

/-- C8: for every input document containing no `FN:`/`FNDA:`/`FNA:` line that
matches the destructor pattern `D[012]Ev`, applying the filter to its own
output produces output byte-identical to applying it once: the first output is
a fixed point of the transformation (and the second run removes nothing). -/
theorem claim_C8 (content out : List Char) (t : Nat)
    (hnm : ∀ l ∈ splitC '\n' content, isFnMatch l = false)
    (h : filter_lcov content = .ok (out, t)) :
    filter_lcov out = .ok (out, 0) :=
  (filter_idem_aux content.length content le_rfl hnm out t h).2

/-- C8 witness: a match-free document whose `FNF: 1` field is rewritten to the
canonical `FNF:1` on the first run; the second run maps that output to
itself. -/
theorem claim_C8_witness :
    (∀ l ∈ splitC '\n' ("SF:a.cpp\nFNF: 1\nend_of_record\n".toList),
        isFnMatch l = false) ∧
    filter_lcov ("SF:a.cpp\nFNF: 1\nend_of_record\n".toList) =
      .ok ("SF:a.cpp\nFNF:1\nend_of_record\n".toList, 0) ∧
    filter_lcov ("SF:a.cpp\nFNF:1\nend_of_record\n".toList) =
      .ok ("SF:a.cpp\nFNF:1\nend_of_record\n".toList, 0) :=
  ⟨by decide, by rfl,
    claim_C8 ("SF:a.cpp\nFNF: 1\nend_of_record\n".toList)
      ("SF:a.cpp\nFNF:1\nend_of_record\n".toList) 0 (by decide) (by rfl)⟩

end FilterCoverage
